import Mathlib

/-!
Verification of the touban-rs duty-rotation CLI (src/main.rs).

The Rust program keeps its whole state in a single token string: a ledger
(struct Book) is serialized to JSON by serde_json, base64url-encoded without
padding, and each base64url symbol is mapped to one code point of the
contiguous 64-code-point hiragana block starting at U+3041.  Commands decode
the token, mutate the ledger, and re-encode it.

Shallow embedding conventions used throughout this file:
- Rust String is modelled as List Char (Lean Char = Unicode scalar value,
  exactly Rust char).
- bytes (u8) are modelled as Nat, kept < 256 where it matters.
- usize is modelled as Nat; the 64-bit range of the target is made explicit
  (< 2^64) where serde's overflow checking is modelled.
- fallible Rust functions returning anyhow::Result are modelled with
  Except Err; the distinct error sites of main.rs get distinct Err
  constructors.
- external library functions (serde_json, base64, rand) are not repository
  code; they are modelled concretely and faithfully to their documented
  behaviour, with any deliberate restriction of generality stated in the
  doc comment of the modelling definition.
-/

namespace Touban

/-- Error kinds of the program, one constructor per distinct error site of
src/main.rs (the Rust code uses anyhow messages; only the identity of the
site matters here). -/
inductive Err where
  /-- "invalid base64url char encountered" in base64url_to_hiragana. -/
  | invalidBase64urlChar (c : Char)
  /-- "invalid hiragana char encountered" in hiragana_to_base64url. -/
  | invalidTokenChar (c : Char)
  /-- "base64url decode failed; maybe corrupted" in decode_book. -/
  | corruptBase64
  /-- "json decode failed" in decode_book. -/
  | malformedJson
  /-- "--people must be >= 1" in cmd_create. -/
  | invalidArgument
  /-- duplicate-member error in cmd_add_member. -/
  | duplicateMember (name : List Char)
  /-- member-not-found error in cmd_remove_member. -/
  | memberNotFound (name : List Char)
  /-- "no members" error in cmd_assign. -/
  | noMembers
deriving DecidableEq, Repr

/-- struct Member of src/main.rs: name: String, count: u8. -/
structure Member where
  name : List Char
  count : Nat
deriving DecidableEq, Repr

/-- struct Book of src/main.rs: people: usize, interval: usize,
members: Vec of Member. -/
structure Book where
  people : Nat
  interval : Nat
  members : List Member
deriving DecidableEq, Repr

instance {ε α : Type} [DecidableEq ε] [DecidableEq α] : DecidableEq (Except ε α) := fun x y =>
  match x, y with
  | .error a, .error b =>
    if h : a = b then .isTrue (by rw [h]) else .isFalse (fun hc => h (Except.error.inj hc))
  | .error _, .ok _ => .isFalse (fun hc => Except.noConfusion hc)
  | .ok _, .error _ => .isFalse (fun hc => Except.noConfusion hc)
  | .ok a, .ok b =>
    if h : a = b then .isTrue (by rw [h]) else .isFalse (fun hc => h (Except.ok.inj hc))

/-- const HIRAGANA_START of src/main.rs. -/
def HIRAGANA_START : Nat := 0x3041

/-- const BASE64_LEN of src/main.rs. -/
def BASE64_LEN : Nat := 64

/-- Model of std::char::from_u32: Some exactly on Unicode scalar values. -/
def charFromU32 (n : Nat) : Option Char :=
  if n.isValidChar then some (Char.ofNat n) else none

/-- fn base64url_char_to_hiragana of src/main.rs.  The Rust code matches on
ch as u8, which truncates the code point to its low byte; modelled by the
explicit % 256. -/
def base64url_char_to_hiragana (ch : Char) : Option Char :=
  let b := ch.toNat % 256
  let idx? : Option Nat :=
    if 0x41 ≤ b ∧ b ≤ 0x5A then some (b - 0x41)
    else if 0x61 ≤ b ∧ b ≤ 0x7A then some (b - 0x61 + 26)
    else if 0x30 ≤ b ∧ b ≤ 0x39 then some (b - 0x30 + 52)
    else if b = 0x2D then some 62
    else if b = 0x5F then some 63
    else none
  match idx? with
  | none => none
  | some idx => charFromU32 (HIRAGANA_START + idx % BASE64_LEN)

/-- fn hiragana_char_to_base64url of src/main.rs. -/
def hiragana_char_to_base64url (ch : Char) : Option Char :=
  let cp := ch.toNat
  if cp < HIRAGANA_START ∨ cp ≥ HIRAGANA_START + BASE64_LEN then none
  else
    let idx := cp - HIRAGANA_START
    if idx ≤ 25 then charFromU32 (0x41 + idx)
    else if idx ≤ 51 then charFromU32 (0x61 + (idx - 26))
    else if idx ≤ 61 then charFromU32 (0x30 + (idx - 52))
    else if idx = 62 then some '-'
    else if idx = 63 then some '_'
    else none

/-- fn base64url_to_hiragana of src/main.rs: maps each char, failing on the
first char that is not a base64url symbol. -/
def base64url_to_hiragana : List Char → Except Err (List Char)
  | [] => .ok []
  | ch :: rest =>
    match base64url_char_to_hiragana ch with
    | none => .error (.invalidBase64urlChar ch)
    | some h =>
      match base64url_to_hiragana rest with
      | .error e => .error e
      | .ok t => .ok (h :: t)

/-- fn hiragana_to_base64url of src/main.rs: maps each char, failing on the
first char outside the 64-code-point hiragana block. -/
def hiragana_to_base64url : List Char → Except Err (List Char)
  | [] => .ok []
  | ch :: rest =>
    match hiragana_char_to_base64url ch with
    | none => .error (.invalidTokenChar ch)
    | some b =>
      match hiragana_to_base64url rest with
      | .error e => .error e
      | .ok t => .ok (b :: t)

/-- Membership in the base64url alphabet (A-Z a-z 0-9 - _). -/
def isB64UrlChar (c : Char) : Bool :=
  let n := c.toNat
  (0x41 ≤ n && n ≤ 0x5A) || (0x61 ≤ n && n ≤ 0x7A) || (0x30 ≤ n && n ≤ 0x39) ||
    n = 0x2D || n = 0x5F

/-- The base64url symbol for a sextet 0..63 (model of the URL_SAFE alphabet
table of the base64 crate). -/
def b64charOfSextet (s : Nat) : Char :=
  if s ≤ 25 then Char.ofNat (0x41 + s)
  else if s ≤ 51 then Char.ofNat (0x61 + (s - 26))
  else if s ≤ 61 then Char.ofNat (0x30 + (s - 52))
  else if s = 62 then '-'
  else '_'

/-- The sextet of a base64url symbol (inverse alphabet table of the base64
crate). -/
def sextetOfB64Char (c : Char) : Option Nat :=
  let n := c.toNat
  if 0x41 ≤ n ∧ n ≤ 0x5A then some (n - 0x41)
  else if 0x61 ≤ n ∧ n ≤ 0x7A then some (n - 0x61 + 26)
  else if 0x30 ≤ n ∧ n ≤ 0x39 then some (n - 0x30 + 52)
  else if n = 0x2D then some 62
  else if n = 0x5F then some 63
  else none

/-- Sextet stream of a byte list: 3 bytes become 4 sextets, a trailing byte
becomes 2 sextets and two trailing bytes become 3 (no padding), as in the
URL_SAFE_NO_PAD engine of the base64 crate. -/
def sextetsOf : List Nat → List Nat
  | [] => []
  | [a] => [a / 4, a % 4 * 16]
  | [a, b] => [a / 4, a % 4 * 16 + b / 16, b % 16 * 4]
  | a :: b :: c :: rest =>
    a / 4 :: (a % 4 * 16 + b / 16) :: (b % 16 * 4 + c / 64) :: c % 64 :: sextetsOf rest

/-- Model of URL_SAFE_NO_PAD.encode of the base64 crate. -/
def b64encodeBytes (bytes : List Nat) : List Char :=
  (sextetsOf bytes).map b64charOfSextet

/-- Byte list of a sextet stream; the inverse of sextetsOf.  A single
trailing sextet is an invalid length, and nonzero trailing bits are
rejected, as in the base64 crate's default decode configuration. -/
def b64decodeGroups : List Nat → Option (List Nat)
  | [] => some []
  | [_] => none
  | [s0, s1] => if s1 % 16 = 0 then some [s0 * 4 + s1 / 16] else none
  | [s0, s1, s2] =>
    if s2 % 4 = 0 then some [s0 * 4 + s1 / 16, s1 % 16 * 16 + s2 / 4] else none
  | s0 :: s1 :: s2 :: s3 :: rest =>
    match b64decodeGroups rest with
    | none => none
    | some bs => some ((s0 * 4 + s1 / 16) :: (s1 % 16 * 16 + s2 / 4) :: (s2 % 4 * 64 + s3) :: bs)

/-- Sextets of a base64url string, failing on any non-alphabet char. -/
def sextetsOfChars : List Char → Option (List Nat)
  | [] => some []
  | c :: rest =>
    match sextetOfB64Char c with
    | none => none
    | some s =>
      match sextetsOfChars rest with
      | none => none
      | some l => some (s :: l)

/-- Model of URL_SAFE_NO_PAD.decode of the base64 crate. -/
def b64decode (chars : List Char) : Option (List Nat) :=
  match sextetsOfChars chars with
  | none => none
  | some l => b64decodeGroups l

/-- UTF-8 bytes of one Unicode scalar value (Rust String/str are UTF-8). -/
def utf8EncodeChar (c : Char) : List Nat :=
  if c.toNat < 0x80 then [c.toNat]
  else if c.toNat < 0x800 then [0xC0 + c.toNat / 64, 0x80 + c.toNat % 64]
  else if c.toNat < 0x10000 then
    [0xE0 + c.toNat / 4096, 0x80 + c.toNat / 64 % 64, 0x80 + c.toNat % 64]
  else
    [0xF0 + c.toNat / 262144, 0x80 + c.toNat / 4096 % 64, 0x80 + c.toNat / 64 % 64,
      0x80 + c.toNat % 64]

/-- ASCII byte list of a Lean string literal, used for the fixed JSON tokens
of the Book schema. -/
def ascii (s : String) : List Nat :=
  s.data.map Char.toNat

/-- Lowercase hex digit byte, as in serde_json's escape table. -/
def hexDigitByte (n : Nat) : Nat :=
  if n < 10 then 0x30 + n else 0x57 + n

/-- JSON string escaping of one char, as serde_json's serializer does it:
quote and backslash get two-byte escapes, the five control chars 0x08 0x09
0x0A 0x0C 0x0D get their short escapes, all other control chars below 0x20
get a lowercase \u00XX escape, and everything else is emitted as raw UTF-8
bytes. -/
def escapeCharBytes (c : Char) : List Nat :=
  if c.toNat = 0x22 then [0x5C, 0x22]
  else if c.toNat = 0x5C then [0x5C, 0x5C]
  else if c.toNat = 0x08 then [0x5C, 0x62]
  else if c.toNat = 0x09 then [0x5C, 0x74]
  else if c.toNat = 0x0A then [0x5C, 0x6E]
  else if c.toNat = 0x0C then [0x5C, 0x66]
  else if c.toNat = 0x0D then [0x5C, 0x72]
  else if c.toNat < 0x20 then
    [0x5C, 0x75, 0x30, 0x30, hexDigitByte (c.toNat / 16), hexDigitByte (c.toNat % 16)]
  else utf8EncodeChar c

/-- Escaped body bytes of a JSON string (without the surrounding quotes). -/
def escBody (s : List Char) : List Nat :=
  (s.map escapeCharBytes).flatten

/-- A JSON string literal with its quotes. -/
def serializeString (s : List Char) : List Nat :=
  0x22 :: escBody s ++ [0x22]

/-- Decimal digit bytes of n pushed in front of acc, most significant first;
fuel-driven so that the kernel can evaluate it (fuel at least n suffices). -/
def natToDigitsAux : Nat → Nat → List Nat → List Nat
  | 0, _, acc => acc
  | fuel + 1, n, acc =>
    if n = 0 then acc else natToDigitsAux fuel (n / 10) ((n % 10 + 0x30) :: acc)

/-- Decimal byte representation of a Nat, as serde_json serializes unsigned
integers. -/
def serializeNat (n : Nat) : List Nat :=
  if n = 0 then [0x30] else natToDigitsAux n n []

/-- serde_json::to_vec on a Member value: the derived Serialize emits the
fields in declaration order with no whitespace. -/
def serializeMember (m : Member) : List Nat :=
  ascii "\x7b\"name\":" ++ serializeString m.name ++ ascii ",\"count\":" ++
    serializeNat m.count ++ ascii "\x7d"

/-- Comma-prefixed serialization of the members after the first. -/
def serializeMembersTail : List Member → List Nat
  | [] => []
  | m :: rest => 0x2C :: serializeMember m ++ serializeMembersTail rest

/-- Comma-separated serialization of a member list (array body without the
brackets). -/
def serializeMembersList : List Member → List Nat
  | [] => []
  | m :: rest => serializeMember m ++ serializeMembersTail rest

/-- serde_json::to_vec(book): the canonical byte serialization of a Book,
fields in declaration order, no whitespace. -/
def jsonSerialize (b : Book) : List Nat :=
  ascii "\x7b\"people\":" ++ serializeNat b.people ++ ascii ",\"interval\":" ++
    serializeNat b.interval ++ ascii ",\"members\":[" ++ serializeMembersList b.members ++
    [0x5D, 0x7D]

/-- Strips pat from the front of bytes, returning the remainder. -/
def stripPrefixBytes : List Nat → List Nat → Option (List Nat)
  | [], bs => some bs
  | _ :: _, [] => none
  | p :: ps, b :: bs => if p = b then stripPrefixBytes ps bs else none

/-- Value of one hex digit byte, upper or lower case accepted (as in
serde_json's \u escape parsing). -/
def hexVal (b : Nat) : Option Nat :=
  if 0x30 ≤ b ∧ b ≤ 0x39 then some (b - 0x30)
  else if 0x61 ≤ b ∧ b ≤ 0x66 then some (b - 0x57)
  else if 0x41 ≤ b ∧ b ≤ 0x46 then some (b - 0x37)
  else none

/-- One char of a JSON string body, as serde_json reads it: an escape
sequence (the short escapes, \/, and \uXXXX for non-surrogate code points)
or one strictly validated UTF-8 sequence; raw control bytes and the quote
are not chars.  Returns the char and the unconsumed remainder.
serde_json additionally accepts \uXXXX surrogate pairs, which the
serializer never emits and no claim depends on. -/
def parseOneChar : List Nat → Option (Char × List Nat)
  | [] => none
  | b :: rest =>
    if b = 0x22 then none
    else if b = 0x5C then
      match rest with
      | [] => none
      | e :: rest2 =>
        if e = 0x22 then some ('"', rest2)
        else if e = 0x5C then some ('\\', rest2)
        else if e = 0x2F then some ('/', rest2)
        else if e = 0x62 then some (Char.ofNat 0x08, rest2)
        else if e = 0x74 then some (Char.ofNat 0x09, rest2)
        else if e = 0x6E then some (Char.ofNat 0x0A, rest2)
        else if e = 0x66 then some (Char.ofNat 0x0C, rest2)
        else if e = 0x72 then some (Char.ofNat 0x0D, rest2)
        else if e = 0x75 then
          match rest2 with
          | h1 :: h2 :: h3 :: h4 :: rest3 =>
            match hexVal h1, hexVal h2, hexVal h3, hexVal h4 with
            | some v1, some v2, some v3, some v4 =>
              if (v1 * 4096 + v2 * 256 + v3 * 16 + v4).isValidChar then
                some (Char.ofNat (v1 * 4096 + v2 * 256 + v3 * 16 + v4), rest3)
              else none
            | _, _, _, _ => none
          | _ => none
        else none
    else if b < 0x20 then none
    else if b < 0x80 then some (Char.ofNat b, rest)
    else if 0xC2 ≤ b ∧ b ≤ 0xDF then
      match rest with
      | [] => none
      | b2 :: rest2 =>
        if 0x80 ≤ b2 ∧ b2 ≤ 0xBF then
          some (Char.ofNat ((b - 0xC0) * 64 + (b2 - 0x80)), rest2)
        else none
    else if 0xE0 ≤ b ∧ b ≤ 0xEF then
      match rest with
      | b2 :: b3 :: rest2 =>
        if (if b = 0xE0 then 0xA0 ≤ b2 ∧ b2 ≤ 0xBF
            else if b = 0xED then 0x80 ≤ b2 ∧ b2 ≤ 0x9F
            else 0x80 ≤ b2 ∧ b2 ≤ 0xBF) ∧ 0x80 ≤ b3 ∧ b3 ≤ 0xBF then
          some (Char.ofNat ((b - 0xE0) * 4096 + (b2 - 0x80) * 64 + (b3 - 0x80)), rest2)
        else none
      | _ => none
    else if 0xF0 ≤ b ∧ b ≤ 0xF4 then
      match rest with
      | b2 :: b3 :: b4 :: rest2 =>
        if (if b = 0xF0 then 0x90 ≤ b2 ∧ b2 ≤ 0xBF
            else if b = 0xF4 then 0x80 ≤ b2 ∧ b2 ≤ 0x8F
            else 0x80 ≤ b2 ∧ b2 ≤ 0xBF) ∧ 0x80 ≤ b3 ∧ b3 ≤ 0xBF ∧ 0x80 ≤ b4 ∧ b4 ≤ 0xBF then
          some (Char.ofNat ((b - 0xF0) * 262144 + (b2 - 0x80) * 4096 +
            (b3 - 0x80) * 64 + (b4 - 0x80)), rest2)
        else none
      | _ => none
    else none

/-- JSON string body parsing loop: chars until the closing quote.  Fuel
only bounds the recursion; every step consumes at least one byte, so fuel
equal to the input length never runs out on an input the loop accepts. -/
def parseStringBodyAux : Nat → List Nat → Option (List Char × List Nat)
  | 0, _ => none
  | _ + 1, [] => none
  | fuel + 1, b :: rest =>
    if b = 0x22 then some ([], rest)
    else
      match parseOneChar (b :: rest) with
      | none => none
      | some cp =>
        match parseStringBodyAux fuel cp.2 with
        | none => none
        | some p => some (cp.1 :: p.1, p.2)

/-- Model of serde_json's JSON string body parsing (after the opening
quote, through the closing quote). -/
def parseStringBody (bytes : List Nat) : Option (List Char × List Nat) :=
  parseStringBodyAux bytes.length bytes

/-- Maximal decimal digit run at the front of the input, as digit values,
with the remainder. -/
def parseDigits : List Nat → List Nat × List Nat
  | [] => ([], [])
  | b :: rest =>
    if 0x30 ≤ b ∧ b ≤ 0x39 then
      let p := parseDigits rest
      ((b - 0x30) :: p.1, p.2)
    else ([], b :: rest)

/-- Model of serde_json's unsigned integer parsing: at least one digit,
value is the decimal reading.  (serde_json additionally rejects redundant
leading zeros, which the serializer never emits and no claim depends on.) -/
def parseNatBytes (bytes : List Nat) : Option (Nat × List Nat) :=
  match parseDigits bytes with
  | ([], _) => none
  | (ds, r) => some (ds.foldl (fun a d => a * 10 + d) 0, r)

/-- Model of the derived Deserialize for Member on the canonical field order
the serializer emits (serde additionally accepts reordered or unknown
fields and inter-token whitespace, which the serializer never emits and no
claim depends on).  The count field goes through u8 deserialization, which
rejects values above 255. -/
def parseMember (bytes : List Nat) : Option (Member × List Nat) := do
  let r1 ← stripPrefixBytes (ascii "\x7b\"name\":") bytes
  let r2 ← stripPrefixBytes [0x22] r1
  let (name, r3) ← parseStringBody r2
  let r4 ← stripPrefixBytes (ascii ",\"count\":") r3
  let (n, r5) ← parseNatBytes r4
  if n < 256 then
    let r6 ← stripPrefixBytes (ascii "\x7d") r5
    pure (⟨name, n⟩, r6)
  else none

/-- Members after the first: a comma then a member, until the closing
bracket.  Fuel-driven recursion; every recursive step consumes at least one
byte, so fuel equal to the input length never runs out. -/
def parseMembersTail : Nat → List Nat → Option (List Member × List Nat)
  | _, [] => none
  | 0, b :: rest => if b = 0x5D then some ([], rest) else none
  | fuel + 1, b :: rest =>
    if b = 0x5D then some ([], rest)
    else if b = 0x2C then do
      let (m, r) ← parseMember rest
      let (ms, r2) ← parseMembersTail fuel r
      pure (m :: ms, r2)
    else none

/-- Member array body (after the opening bracket, through the closing
bracket). -/
def parseMembersBytes (fuel : Nat) (bytes : List Nat) : Option (List Member × List Nat) :=
  match bytes with
  | [] => none
  | b :: rest =>
    if b = 0x5D then some ([], rest)
    else do
      let (m, r) ← parseMember (b :: rest)
      let (ms, r2) ← parseMembersTail fuel r
      pure (m :: ms, r2)

/-- serde_json::from_slice for Book, on the canonical shape the serializer
emits (see parseMember for the deliberate restrictions).  usize fields go
through 64-bit deserialization, which rejects values at or above 2^64;
trailing bytes after the closing brace are rejected. -/
def jsonParse (bytes : List Nat) : Option Book := do
  let r1 ← stripPrefixBytes (ascii "\x7b\"people\":") bytes
  let (people, r2) ← parseNatBytes r1
  if people < 18446744073709551616 then
    let r3 ← stripPrefixBytes (ascii ",\"interval\":") r2
    let (interval, r4) ← parseNatBytes r3
    if interval < 18446744073709551616 then
      let r5 ← stripPrefixBytes (ascii ",\"members\":[") r4
      let (ms, r6) ← parseMembersBytes r5.length r5
      if r6 = [0x7D] then pure ⟨people, interval, ms⟩ else none
    else none
  else none

/-- fn encode_book of src/main.rs: serde_json::to_vec, then
URL_SAFE_NO_PAD.encode, then base64url_to_hiragana. -/
def encode_book (book : Book) : Except Err (List Char) :=
  let json := jsonSerialize book
  let b64 := b64encodeBytes json
  base64url_to_hiragana b64

/-- fn decode_book of src/main.rs: hiragana_to_base64url, then
URL_SAFE_NO_PAD.decode, then serde_json::from_slice. -/
def decode_book (hira : List Char) : Except Err Book :=
  match hiragana_to_base64url hira with
  | .error e => .error e
  | .ok b64 =>
    match b64decode b64 with
    | none => .error .corruptBase64
    | some bytes =>
      match jsonParse bytes with
      | none => .error .malformedJson
      | some book => .ok book

/-- Rust char::is_whitespace (the Unicode White_Space property), used by
str::trim. -/
def isRustWhitespace (c : Char) : Bool :=
  let n := c.toNat
  (0x09 ≤ n && n ≤ 0x0D) || n = 0x20 || n = 0x85 || n = 0xA0 || n = 0x1680 ||
    (0x2000 ≤ n && n ≤ 0x200A) || n = 0x2028 || n = 0x2029 || n = 0x202F ||
    n = 0x205F || n = 0x3000

/-- str::trim: drop Unicode whitespace from both ends. -/
def trimChars (l : List Char) : List Char :=
  ((l.dropWhile isRustWhitespace).reverse.dropWhile isRustWhitespace).reverse

/-- fn split_members_arg of src/main.rs: split on commas, trim each piece,
drop empty pieces. -/
def split_members_arg (s : List Char) : List (List Char) :=
  ((s.splitOn ',').map trimChars).filter (fun x => !x.isEmpty)

/-- The wrap-increment of cmd_assign's update loop: u8 saturating_add 1,
then wrap to 0 if above 5. -/
def wrapInc (c : Nat) : Nat :=
  if min (c + 1) 255 > 5 then 0 else min (c + 1) 255

/-- book.members.iter().map(count).max().unwrap_or(0) of cmd_assign. -/
def maxCount (ms : List Member) : Nat :=
  ms.foldl (fun a m => max a m.count) 0

/-- book.members.iter().map(count).min().unwrap_or(0) of cmd_assign. -/
def minCount (ms : List Member) : Nat :=
  match ms with
  | [] => 0
  | m :: rest => rest.foldl (fun a x => min a x.count) m.count

/-- The reset step of cmd_assign: if any count reached 5, zero every
count; otherwise leave the members untouched. -/
def resetStep (ms : List Member) : List Member :=
  if maxCount ms ≥ 5 then ms.map (fun m => ⟨m.name, 0⟩) else ms

/-- iter().enumerate() over a list, starting at index i. -/
def enumFromIdx (i : Nat) : List Member → List (Nat × Member)
  | [] => []
  | m :: rest => (i, m) :: enumFromIdx (i + 1) rest

/-- The candidate-index computation of cmd_assign: indices of the members
whose count equals minc, in order. -/
def candIdx (ms : List Member) (minc : Nat) : List Nat :=
  ((enumFromIdx 0 ms).filter (fun p => p.2.count == minc)).map (fun p => p.1)

/-- In-place update of the element at one index (Vec indexing assignment). -/
def modifyIdx (f : Member → Member) : Nat → List Member → List Member
  | _, [] => []
  | 0, m :: rest => f m :: rest
  | n + 1, m :: rest => m :: modifyIdx f n rest

/-- The update loop of cmd_assign: for each selected index in order,
wrap-increment that member's count. -/
def applySelected (ms : List Member) (sel : List Nat) : List Member :=
  sel.foldl (fun acc i => modifyIdx (fun m => ⟨m.name, wrapInc m.count⟩) i acc) ms

/-- The ledger transformation of fn cmd_assign of src/main.rs, parametrized
by the shuffle the rand crate performs on the candidate vector (the code
shuffles in place with either a seeded ChaCha8 generator or thread_rng; any
run of that code applies some permutation, so theorems quantify over the
shuffle, constrained to be a permutation where needed).  Returns the
selected indices in selection order together with the updated book. -/
def assign_book (shuffle : List Nat → List Nat) (book : Book) :
    Except Err (List Nat × Book) :=
  if book.members.isEmpty then .error .noMembers
  else
    let ms1 := resetStep book.members
    let minc := minCount ms1
    let shuffled := shuffle (candIdx ms1 minc)
    let take := min book.people shuffled.length
    let sel := shuffled.take take
    .ok (sel, ⟨book.people, book.interval, applySelected ms1 sel⟩)

/-- One 64-bit step of a deterministic generator stream.  Stands in for the
ChaCha8 stream of rand_chacha: only the facts that the stream is a pure
function of the seed and drives an in-place Fisher-Yates shuffle are
modelled; the claims do not depend on the concrete ChaCha8 values. -/
def lcgNext (s : Nat) : Nat :=
  (s * 6364136223846793005 + 1442695040888963407) % 18446744073709551616

/-- Fisher-Yates loop: for i from hi down to 1, swap position i with a
generator-chosen position at most i. -/
def fyLoop : Nat → Nat → List Nat → List Nat
  | 0, _, l => l
  | i + 1, st, l =>
    let st' := lcgNext st
    let j := st' % (i + 2)
    let a := l.getD (i + 1) 0
    let b := l.getD j 0
    fyLoop i st' ((l.set (i + 1) b).set j a)

/-- Model of SliceRandom::shuffle driven by ChaCha8Rng::seed_from_u64(s):
a deterministic in-place Fisher-Yates shuffle that is a pure function of
the seed (see lcgNext for the modelling note on the stream values). -/
def seededShuffle (seed : Nat) (l : List Nat) : List Nat :=
  fyLoop (l.length - 1) seed l

/-- fn cmd_assign of src/main.rs at the token level: decode the book, fail
on an empty member list, reset/select/update, re-encode.  The entropy
parameter is the ambient permutation the thread_rng path would apply; the
seeded path ignores it and derives its shuffle from the seed alone. -/
def cmd_assign (book_str : List Char) (seed : Option Nat)
    (entropy : List Nat → List Nat) : Except Err (List Nat × List Char) := do
  let book ← decode_book book_str
  let shuffle := match seed with
    | some s => seededShuffle s
    | none => entropy
  let (sel, book') ← assign_book shuffle book
  let tok ← encode_book book'
  pure (sel, tok)

/-- The rounded arithmetic mean of cmd_add_member:
((s as f64) / (len as f64)).round() as u8.  f64 rounding is round half away
from zero, which for nonnegative integers s, len equals
(2*s + len) / (2*len) in integer arithmetic; the final as-u8 cast saturates
at 255.  (The f64 division itself is exact on every value the program can
reach: counts are u8, so s / len is at most 255 and well inside f64's exact
range for any ledger small enough to exist in memory.) -/
def roundedMean (s len : Nat) : Nat :=
  min ((2 * s + len) / (2 * len)) 255

/-- members.iter().map(count as usize).sum() of cmd_add_member. -/
def ms_countSum (ms : List Member) : Nat :=
  (ms.map Member.count).sum

/-- The ledger transformation of fn cmd_add_member of src/main.rs: fail on
an existing name, otherwise append a member whose count is the rounded mean
of the existing counts (0 for an empty ledger). -/
def add_member (book : Book) (member : List Char) : Except Err Book :=
  if book.members.any (fun m => m.name = member) then
    .error (.duplicateMember member)
  else
    .ok ⟨book.people, book.interval, book.members ++
      [⟨member, if book.members.isEmpty then 0
        else roundedMean (ms_countSum book.members) book.members.length⟩]⟩

/-- The ledger transformation of fn cmd_remove_member of src/main.rs:
retain every member whose name differs; fail if nothing was removed. -/
def remove_member (book : Book) (member : List Char) : Except Err Book :=
  if (book.members.filter (fun m => m.name ≠ member)).length = book.members.length then
    .error (.memberNotFound member)
  else .ok ⟨book.people, book.interval, book.members.filter (fun m => m.name ≠ member)⟩

/-- fn cmd_add_member of src/main.rs at the token level. -/
def cmd_add_member (book_str : List Char) (member : List Char) :
    Except Err (List Char) := do
  let book ← decode_book book_str
  let book' ← add_member book member
  encode_book book'

/-- fn cmd_remove_member of src/main.rs at the token level. -/
def cmd_remove_member (book_str : List Char) (member : List Char) :
    Except Err (List Char) := do
  let book ← decode_book book_str
  let book' ← remove_member book member
  encode_book book'

/-- fn cmd_create of src/main.rs: reject people == 0, split the optional
members argument, give every member count 0, and encode.  Returns the book
together with the printed token. -/
def cmd_create (people interval : Nat) (members : Option (List Char)) :
    Except Err (Book × List Char) :=
  if people = 0 then .error .invalidArgument
  else
    let members_vec := (members.map split_members_arg).getD []
    let book : Book := ⟨people, interval, members_vec.map (fun name => ⟨name, 0⟩)⟩
    match encode_book book with
    | .error e => .error e
    | .ok hira => .ok (book, hira)

/-- Membership in the contiguous 64-code-point hiragana block the codec
uses: code points HIRAGANA_START to HIRAGANA_START + 63. -/
def inBlock (c : Char) : Prop :=
  HIRAGANA_START ≤ c.toNat ∧ c.toNat < HIRAGANA_START + BASE64_LEN

instance (c : Char) : Decidable (inBlock c) := by
  unfold inBlock
  exact inferInstance

/-- Structural well-formedness of a Book value, i.e. exactly the typing
constraints of the Rust struct: people and interval fit usize (64-bit
target) and every count fits u8.  Names are arbitrary strings. -/
def WFBook (b : Book) : Prop :=
  b.people < 18446744073709551616 ∧ b.interval < 18446744073709551616 ∧
    ∀ m ∈ b.members, m.count < 256

instance (b : Book) : Decidable (WFBook b) := by
  unfold WFBook
  exact inferInstance

/-- A concrete well-formed ledger with a multibyte name and a name that
needs JSON escaping, used to instantiate theorems with hypotheses. -/
def bookA : Book :=
  ⟨2, 7, [⟨"たろう".data, 0⟩, ⟨"は\"な".data, 3⟩]⟩

/-- A concrete ledger violating every data-model invariant at once:
people = 0, a count above 5, and duplicate names. -/
def badBook : Book :=
  ⟨0, 0, [⟨"a".data, 6⟩, ⟨"a".data, 2⟩]⟩

/-- The token encode_book produces for badBook (the hiragana string the
Rust tool would print). -/
def badTok : List Char :=
  ("たびおぱずしまぱぜぇさっくつぁねぉでてはぞぇざびぞでうねぉつどぱがぃおのずしぶっずじおぴぉつなぜたびおはすしぶてぉつどっすこぉねぉでぎばぞしぺふぉつどぷだこひぼぉでぺぢぜしさっくっおぢぉっぱっすぷまぶぜとけっくつおまじじふ").data

/-- The ledger of the assign scenario: A and B at count 4, C at count 2,
one person drawn per round. -/
def bookB : Book :=
  ⟨1, 0, [⟨"A".data, 4⟩, ⟨"B".data, 4⟩, ⟨"C".data, 2⟩]⟩

/-- The ledger of the add-member scenario: counts 2 and 4, rounded mean 3. -/
def bookC : Book :=
  ⟨1, 0, [⟨"A".data, 2⟩, ⟨"B".data, 4⟩]⟩

/-- The token cmd_create prints for people 2, interval 7, members "a, a"
(duplicate name kept). -/
def createTok : List Char :=
  ("たびおぱずしまぱぜぇさっくつぉねぉでてはぞぇざびぞでうねぉつどへがぃおのずしぶっずじおぴぉつなぜたびおはすしぶてぉつどっすこぉねぉでぎばぞしぺふぉつどぱだこひぼぉでぺぢぜしさっくっおぢぉっぱっすぷまぶぜとけっくつあまじじふ").data

/-! ## Character-level facts -/

theorem char_toNat_ofNat (n : Nat) (h : n.isValidChar) : (Char.ofNat n).toNat = n := by
  unfold Char.ofNat
  rw [dif_pos h]
  rfl

theorem char_eq_of_toNat_eq {c d : Char} (h : c.toNat = d.toNat) : c = d := by
  apply Char.eq_of_val_eq
  apply UInt32.ext
  exact h

/-- The hiragana table is a right inverse of the base64url table on the
base64url alphabet. -/
theorem b64_hira_char_roundtrip (c : Char) (h : isB64UrlChar c = true) :
    (base64url_char_to_hiragana c).bind hiragana_char_to_base64url = some c := by
  have hb : c.toNat < 0x80 := by
    simp only [isB64UrlChar, Bool.or_eq_true, Bool.and_eq_true, decide_eq_true_eq] at h
    omega
  have hc : c = Char.ofNat c.toNat := (Char.ofNat_toNat c).symm
  rw [hc] at h ⊢
  generalize c.toNat = m at h hb ⊢
  interval_cases m <;> revert h <;> decide

/-- Every char of the hiragana block maps to some base64url symbol. -/
theorem hira_char_maps_to_b64 (c : Char) (h : inBlock c) :
    (hiragana_char_to_base64url c).map isB64UrlChar = some true := by
  have hb : HIRAGANA_START ≤ c.toNat ∧ c.toNat < HIRAGANA_START + BASE64_LEN := h
  have hc : c = Char.ofNat c.toNat := (Char.ofNat_toNat c).symm
  rw [hc]
  rw [show HIRAGANA_START = 0x3041 from rfl, show BASE64_LEN = 64 from rfl] at hb
  generalize c.toNat = m at hb ⊢
  obtain ⟨hb1, hb2⟩ := hb
  interval_cases m <;> decide

/-- Chars outside the hiragana block are rejected by the table. -/
theorem hira_char_none_of_not_inBlock (c : Char) (h : ¬ inBlock c) :
    hiragana_char_to_base64url c = none := by
  unfold hiragana_char_to_base64url
  rw [if_pos]
  unfold inBlock at h
  omega

/-- Round trip of the whole hiragana mapping on a base64url string. -/
theorem hira_list_roundtrip (l : List Char) (h : ∀ c ∈ l, isB64UrlChar c = true) :
    ∃ t, base64url_to_hiragana l = .ok t ∧ hiragana_to_base64url t = .ok l := by
  induction l with
  | nil => exact ⟨[], rfl, rfl⟩
  | cons c rest ih =>
    have hrt := b64_hira_char_roundtrip c (h c (by simp))
    obtain ⟨t, h1, h2⟩ := ih (fun x hx => h x (by simp [hx]))
    cases he : base64url_char_to_hiragana c with
    | none => rw [he] at hrt; simp at hrt
    | some hcch =>
      rw [he, Option.some_bind] at hrt
      refine ⟨hcch :: t, ?_, ?_⟩
      · simp only [base64url_to_hiragana, he, h1]
      · simp only [hiragana_to_base64url, hrt, h2]

/-- hiragana_to_base64url fails with invalidTokenChar as soon as any char
is outside the block. -/
theorem hiragana_to_base64url_fails (l : List Char) (h : ∃ c ∈ l, ¬ inBlock c) :
    ∃ c, ¬ inBlock c ∧ hiragana_to_base64url l = .error (.invalidTokenChar c) := by
  induction l with
  | nil => simp at h
  | cons c0 rest ih =>
    by_cases hc0 : inBlock c0
    · have hsome := hira_char_maps_to_b64 c0 hc0
      cases he : hiragana_char_to_base64url c0 with
      | none => rw [he] at hsome; simp at hsome
      | some b =>
        have hrest : ∃ c ∈ rest, ¬ inBlock c := by
          obtain ⟨c, hmem, hbad⟩ := h
          rcases List.mem_cons.mp hmem with rfl | hmem2
          · exact absurd hc0 hbad
          · exact ⟨c, hmem2, hbad⟩
        obtain ⟨c, hbad, herr⟩ := ih hrest
        refine ⟨c, hbad, ?_⟩
        simp only [hiragana_to_base64url, he, herr]
    · refine ⟨c0, hc0, ?_⟩
      simp only [hiragana_to_base64url, hira_char_none_of_not_inBlock c0 hc0]

/-! ## Base64 layer -/

theorem sextetsOf_lt_64 (bytes : List Nat) (h : ∀ b ∈ bytes, b < 256) :
    ∀ s ∈ sextetsOf bytes, s < 64 := by
  induction bytes using sextetsOf.induct with
  | case1 => simp [sextetsOf]
  | case2 a =>
    have := h a (by simp)
    simp only [sextetsOf, List.mem_cons, List.mem_singleton, List.not_mem_nil]
    intro s hs
    rcases hs with rfl | hs
    · omega
    · simp at hs; omega
  | case3 a b =>
    have ha := h a (by simp)
    have hb := h b (by simp)
    simp only [sextetsOf, List.mem_cons, List.not_mem_nil]
    intro s hs
    rcases hs with rfl | rfl | hs
    · omega
    · omega
    · simp at hs; omega
  | case4 a b c rest ih =>
    have ha := h a (by simp)
    have hb := h b (by simp)
    have hcc := h c (by simp)
    have ih2 := ih (fun x hx => h x (by simp [hx]))
    simp only [sextetsOf, List.mem_cons]
    intro s hs
    rcases hs with rfl | rfl | rfl | rfl | hs
    · omega
    · omega
    · omega
    · omega
    · exact ih2 s hs

theorem b64char_sextet_roundtrip (s : Nat) (h : s < 64) :
    sextetOfB64Char (b64charOfSextet s) = some s ∧ isB64UrlChar (b64charOfSextet s) = true := by
  interval_cases s <;> exact ⟨by decide, by decide⟩

theorem sextetsOfChars_map (l : List Nat) (h : ∀ s ∈ l, s < 64) :
    sextetsOfChars (l.map b64charOfSextet) = some l := by
  induction l with
  | nil => rfl
  | cons s rest ih =>
    have h1 := (b64char_sextet_roundtrip s (h s (by simp))).1
    have h2 := ih (fun x hx => h x (by simp [hx]))
    simp only [List.map_cons, sextetsOfChars, h1, h2]

theorem b64decodeGroups_sextetsOf (bytes : List Nat) (h : ∀ b ∈ bytes, b < 256) :
    b64decodeGroups (sextetsOf bytes) = some bytes := by
  induction bytes using sextetsOf.induct with
  | case1 => rfl
  | case2 a =>
    have ha := h a (by simp)
    simp only [sextetsOf, b64decodeGroups]
    rw [if_pos (by omega)]
    congr 1
    congr 1
    omega
  | case3 a b =>
    have ha := h a (by simp)
    have hb := h b (by simp)
    simp only [sextetsOf, b64decodeGroups]
    rw [if_pos (by omega)]
    congr 1
    congr 1
    · omega
    · congr 1
      omega
  | case4 a b c rest ih =>
    have ha := h a (by simp)
    have hb := h b (by simp)
    have hcc := h c (by simp)
    have ih2 := ih (fun x hx => h x (by simp [hx]))
    simp only [sextetsOf, b64decodeGroups, ih2]
    congr 1
    congr 1
    · omega
    · congr 1
      · omega
      · congr 1
        omega

/-- Full base64url round trip on byte lists. -/
theorem b64decode_encode (bytes : List Nat) (h : ∀ b ∈ bytes, b < 256) :
    b64decode (b64encodeBytes bytes) = some bytes := by
  unfold b64decode b64encodeBytes
  rw [sextetsOfChars_map _ (sextetsOf_lt_64 bytes h)]
  exact b64decodeGroups_sextetsOf bytes h

/-- Every char the base64url encoder emits is in the alphabet. -/
theorem b64encode_chars (bytes : List Nat) (h : ∀ b ∈ bytes, b < 256) :
    ∀ c ∈ b64encodeBytes bytes, isB64UrlChar c = true := by
  intro c hc
  unfold b64encodeBytes at hc
  obtain ⟨s, hs, rfl⟩ := List.mem_map.mp hc
  exact (b64char_sextet_roundtrip s (sextetsOf_lt_64 bytes h s hs)).2

/-! ## The serializer only emits genuine bytes -/

theorem char_toNat_lt (c : Char) : c.toNat < 0x110000 := by
  have hv := c.valid
  have heq : c.toNat = c.val.toNat := rfl
  unfold UInt32.isValidChar Nat.isValidChar at hv
  omega

theorem utf8EncodeChar_lt (c : Char) : ∀ x ∈ utf8EncodeChar c, x < 256 := by
  have hv := char_toNat_lt c
  unfold utf8EncodeChar
  split_ifs <;> intro x hx <;> simp only [List.mem_cons, List.not_mem_nil, or_false] at hx
  · omega
  · rcases hx with rfl | rfl <;> omega
  · rcases hx with rfl | rfl | rfl <;> omega
  · rcases hx with rfl | rfl | rfl | rfl <;> omega

theorem hexDigitByte_lt (d : Nat) (h : d < 16) : hexDigitByte d < 256 := by
  unfold hexDigitByte
  split <;> omega

theorem escapeCharBytes_lt (c : Char) : ∀ x ∈ escapeCharBytes c, x < 256 := by
  unfold escapeCharBytes
  have h1 := hexDigitByte_lt (c.toNat / 16)
  have h2 := hexDigitByte_lt (c.toNat % 16)
  split_ifs <;> first
    | (intro x hx
       simp only [List.mem_cons, List.not_mem_nil, or_false] at hx
       rcases hx with rfl | rfl <;> omega)
    | (intro x hx
       simp only [List.mem_cons, List.not_mem_nil, or_false] at hx
       rcases hx with rfl | rfl | rfl | rfl | rfl | rfl <;> omega)
    | exact utf8EncodeChar_lt c

theorem escBody_lt (s : List Char) : ∀ x ∈ escBody s, x < 256 := by
  intro x hx
  unfold escBody at hx
  obtain ⟨l, hl, hxl⟩ := List.mem_flatten.mp hx
  obtain ⟨c, _, rfl⟩ := List.mem_map.mp hl
  exact escapeCharBytes_lt c x hxl

theorem serializeString_lt (s : List Char) : ∀ x ∈ serializeString s, x < 256 := by
  intro x hx
  unfold serializeString at hx
  rcases List.mem_cons.mp hx with rfl | hx2
  · omega
  · rcases List.mem_append.mp hx2 with hx3 | hx3
    · exact escBody_lt s x hx3
    · simp only [List.mem_singleton] at hx3; omega

theorem natToDigitsAux_lt (fuel : Nat) : ∀ n acc, (∀ x ∈ acc, x < 256) →
    ∀ x ∈ natToDigitsAux fuel n acc, x < 256 := by
  induction fuel with
  | zero => intro n acc hacc; exact hacc
  | succ f ih =>
    intro n acc hacc
    unfold natToDigitsAux
    split
    · exact hacc
    · refine ih (n / 10) _ ?_
      intro x hx
      rcases List.mem_cons.mp hx with rfl | hx2
      · omega
      · exact hacc x hx2

theorem serializeNat_lt (n : Nat) : ∀ x ∈ serializeNat n, x < 256 := by
  unfold serializeNat
  split
  · intro x hx; simp only [List.mem_singleton] at hx; omega
  · exact natToDigitsAux_lt n n [] (by simp)

theorem serializeMember_lt (m : Member) : ∀ x ∈ serializeMember m, x < 256 := by
  intro x hx
  unfold serializeMember at hx
  simp only [List.mem_append] at hx
  rcases hx with (((hx | hx) | hx) | hx) | hx
  · revert x hx; decide
  · exact serializeString_lt m.name x hx
  · revert x hx; decide
  · exact serializeNat_lt m.count x hx
  · revert x hx; decide

theorem serializeMembersTail_lt (ms : List Member) : ∀ x ∈ serializeMembersTail ms, x < 256 := by
  induction ms with
  | nil => simp [serializeMembersTail]
  | cons m rest ih =>
    intro x hx
    unfold serializeMembersTail at hx
    rcases List.mem_cons.mp hx with rfl | hx2
    · omega
    · rcases List.mem_append.mp hx2 with hx3 | hx3
      · exact serializeMember_lt m x hx3
      · exact ih x hx3

theorem serializeMembersList_lt (ms : List Member) : ∀ x ∈ serializeMembersList ms, x < 256 := by
  cases ms with
  | nil => simp [serializeMembersList]
  | cons m rest =>
    intro x hx
    unfold serializeMembersList at hx
    rcases List.mem_append.mp hx with hx2 | hx2
    · exact serializeMember_lt m x hx2
    · exact serializeMembersTail_lt rest x hx2

theorem jsonSerialize_lt (b : Book) : ∀ x ∈ jsonSerialize b, x < 256 := by
  intro x hx
  unfold jsonSerialize at hx
  simp only [List.mem_append] at hx
  rcases hx with (((((hx | hx) | hx) | hx) | hx) | hx) | hx
  · revert x hx; decide
  · exact serializeNat_lt b.people x hx
  · revert x hx; decide
  · exact serializeNat_lt b.interval x hx
  · revert x hx; decide
  · exact serializeMembersList_lt b.members x hx
  · simp only [List.mem_cons, List.mem_singleton, List.not_mem_nil, or_false] at hx
    omega

/-! ## Decimal integer round trip -/

theorem natToDigitsAux_eq (fuel : Nat) : ∀ n acc, n ≤ fuel →
    natToDigitsAux fuel n acc = ((Nat.digits 10 n).map (fun d => d + 0x30)).reverse ++ acc := by
  induction fuel with
  | zero =>
    intro n acc hn
    have : n = 0 := by omega
    subst this
    simp [natToDigitsAux]
  | succ f ih =>
    intro n acc hn
    unfold natToDigitsAux
    split
    · rename_i h0
      subst h0
      simp
    · rename_i h0
      have hlt : n / 10 < n := Nat.div_lt_self (by omega) (by omega)
      rw [ih (n / 10) _ (by omega)]
      rw [Nat.digits_def' (by norm_num : (1:Nat) < 10) (by omega : 0 < n)]
      simp [List.append_assoc]

theorem parseDigits_append (ds : List Nat) (rest : List Nat)
    (hds : ∀ d ∈ ds, 0x30 ≤ d ∧ d ≤ 0x39)
    (hrest : ∀ b, rest.head? = some b → ¬(0x30 ≤ b ∧ b ≤ 0x39)) :
    parseDigits (ds ++ rest) = (ds.map (fun d => d - 0x30), rest) := by
  induction ds with
  | nil =>
    cases rest with
    | nil => rfl
    | cons b r =>
      simp only [List.nil_append, parseDigits, List.map_nil]
      rw [if_neg (hrest b rfl)]
  | cons d ds' ih =>
    have hd := hds d (by simp)
    have ih2 := ih (fun x hx => hds x (by simp [hx]))
    simp only [List.cons_append, parseDigits, List.append_eq]
    rw [if_pos hd, ih2]
    simp

theorem foldr_eq_ofDigits (l : List Nat) :
    l.foldr (fun d a => a * 10 + d) 0 = Nat.ofDigits 10 l := by
  induction l with
  | nil => simp [Nat.ofDigits]
  | cons d l' ih => simp [Nat.ofDigits, ih]; ring

theorem foldl_reverse_digits (l : List Nat) :
    (l.reverse).foldl (fun a d => a * 10 + d) 0 = Nat.ofDigits 10 l := by
  rw [List.foldl_reverse]
  exact foldr_eq_ofDigits l

theorem parseNat_serializeNat (n : Nat) (rest : List Nat)
    (hrest : ∀ b, rest.head? = some b → ¬(0x30 ≤ b ∧ b ≤ 0x39)) :
    parseNatBytes (serializeNat n ++ rest) = some (n, rest) := by
  by_cases h0 : n = 0
  · subst h0
    unfold serializeNat parseNatBytes
    rw [if_pos rfl]
    rw [parseDigits_append [0x30] rest (by simp) hrest]
    rfl
  · unfold serializeNat parseNatBytes
    rw [if_neg h0, natToDigitsAux_eq n n [] le_rfl, List.append_nil]
    have hdig : ∀ d ∈ ((Nat.digits 10 n).map (fun d => d + 0x30)).reverse,
        0x30 ≤ d ∧ d ≤ 0x39 := by
      intro d hd
      rw [List.mem_reverse] at hd
      obtain ⟨v, hv, rfl⟩ := List.mem_map.mp hd
      have := Nat.digits_lt_base (by norm_num) hv
      omega
    rw [parseDigits_append _ rest hdig hrest]
    have hne : (Nat.digits 10 n) ≠ [] := Nat.digits_ne_nil_iff_ne_zero.mpr h0
    have hmap : (((Nat.digits 10 n).map (fun d => d + 0x30)).reverse).map (fun d => d - 0x30) =
        (Nat.digits 10 n).reverse := by
      rw [← List.map_reverse, List.map_map]
      have : ∀ a ∈ (Nat.digits 10 n).reverse,
          ((fun d => d - 0x30) ∘ (fun d => d + 0x30)) a = id a := by
        intro a _; simp
      rw [List.map_congr_left this, List.map_id]
    rw [hmap]
    cases hd : (Nat.digits 10 n).reverse with
    | nil => exact absurd (by simpa using hd) hne
    | cons d ds' =>
      simp only []
      rw [← hd, foldl_reverse_digits, Nat.ofDigits_digits]

/-! ## JSON string round trip -/

theorem hexVal_hexDigitByte (d : Nat) (h : d < 16) : hexVal (hexDigitByte d) = some d := by
  interval_cases d <;> decide

theorem char_not_surrogate (c : Char) : c.toNat < 0xD800 ∨ 0xDFFF < c.toNat := by
  have hv := c.valid
  have heq : c.toNat = c.val.toNat := rfl
  unfold UInt32.isValidChar Nat.isValidChar at hv
  omega

theorem poc_ascii (b : Nat) (r : List Nat) (h1 : ¬ b = 0x22) (h2 : ¬ b = 0x5C)
    (h3 : ¬ b < 0x20) (h4 : b < 0x80) :
    parseOneChar (b :: r) = some (Char.ofNat b, r) := by
  unfold parseOneChar
  dsimp only
  rw [if_neg h1, if_neg h2, if_neg h3, if_pos h4]

theorem poc_2byte (b b2 : Nat) (r : List Nat) (h1 : 0xC2 ≤ b) (h2 : b ≤ 0xDF)
    (h3 : 0x80 ≤ b2) (h4 : b2 ≤ 0xBF) :
    parseOneChar (b :: b2 :: r) = some (Char.ofNat ((b - 0xC0) * 64 + (b2 - 0x80)), r) := by
  unfold parseOneChar
  dsimp only
  rw [if_neg (by omega), if_neg (by omega), if_neg (by omega), if_neg (by omega),
    if_pos (by omega), if_pos (by omega)]

theorem poc_3byte (b b2 b3 : Nat) (r : List Nat) (h1 : 0xE0 ≤ b) (h2 : b ≤ 0xEF)
    (hc : (if b = 0xE0 then 0xA0 ≤ b2 ∧ b2 ≤ 0xBF
        else if b = 0xED then 0x80 ≤ b2 ∧ b2 ≤ 0x9F
        else 0x80 ≤ b2 ∧ b2 ≤ 0xBF) ∧ 0x80 ≤ b3 ∧ b3 ≤ 0xBF) :
    parseOneChar (b :: b2 :: b3 :: r) =
      some (Char.ofNat ((b - 0xE0) * 4096 + (b2 - 0x80) * 64 + (b3 - 0x80)), r) := by
  unfold parseOneChar
  dsimp only
  rw [if_neg (by omega), if_neg (by omega), if_neg (by omega), if_neg (by omega),
    if_neg (by omega), if_pos (by omega), if_pos hc]

theorem poc_4byte (b b2 b3 b4 : Nat) (r : List Nat) (h1 : 0xF0 ≤ b) (h2 : b ≤ 0xF4)
    (hc : (if b = 0xF0 then 0x90 ≤ b2 ∧ b2 ≤ 0xBF
        else if b = 0xF4 then 0x80 ≤ b2 ∧ b2 ≤ 0x8F
        else 0x80 ≤ b2 ∧ b2 ≤ 0xBF) ∧ 0x80 ≤ b3 ∧ b3 ≤ 0xBF ∧ 0x80 ≤ b4 ∧ b4 ≤ 0xBF) :
    parseOneChar (b :: b2 :: b3 :: b4 :: r) =
      some (Char.ofNat ((b - 0xF0) * 262144 + (b2 - 0x80) * 4096 +
        (b3 - 0x80) * 64 + (b4 - 0x80)), r) := by
  unfold parseOneChar
  dsimp only
  rw [if_neg (by omega), if_neg (by omega), if_neg (by omega), if_neg (by omega),
    if_neg (by omega), if_neg (by omega), if_pos (by omega), if_pos hc]

theorem poc_u (h1 h2 h3 h4 : Nat) (v1 v2 v3 v4 : Nat) (r : List Nat)
    (e1 : hexVal h1 = some v1) (e2 : hexVal h2 = some v2)
    (e3 : hexVal h3 = some v3) (e4 : hexVal h4 = some v4)
    (hv : (v1 * 4096 + v2 * 256 + v3 * 16 + v4).isValidChar) :
    parseOneChar (0x5C :: 0x75 :: h1 :: h2 :: h3 :: h4 :: r) =
      some (Char.ofNat (v1 * 4096 + v2 * 256 + v3 * 16 + v4), r) := by
  unfold parseOneChar
  dsimp only
  norm_num
  rw [e1, e2, e3, e4]
  dsimp only
  rw [if_pos hv]

/-- Parsing consumes exactly the escape bytes of one char and yields that
char, whatever follows. -/
theorem parseOneChar_escape (c : Char) (r : List Nat) :
    parseOneChar (escapeCharBytes c ++ r) = some (c, r) := by
  have hofn := Char.ofNat_toNat c
  have hlt := char_toNat_lt c
  have hval := char_not_surrogate c
  by_cases h22 : c.toNat = 0x22
  · have hc : '"' = c := char_eq_of_toNat_eq (by rw [h22]; decide)
    have he : escapeCharBytes c = [0x5C, 0x22] := by
      unfold escapeCharBytes; rw [if_pos h22]
    rw [he, ← hc]
    simp [parseOneChar]
  by_cases h5c : c.toNat = 0x5C
  · have hc : '\\' = c := char_eq_of_toNat_eq (by rw [h5c]; decide)
    have he : escapeCharBytes c = [0x5C, 0x5C] := by
      unfold escapeCharBytes; rw [if_neg h22, if_pos h5c]
    rw [he, ← hc]
    simp [parseOneChar]
  by_cases h08 : c.toNat = 0x08
  · have hc : Char.ofNat 0x08 = c :=
      char_eq_of_toNat_eq (by rw [char_toNat_ofNat 0x08 (by decide), h08])
    have he : escapeCharBytes c = [0x5C, 0x62] := by
      unfold escapeCharBytes; rw [if_neg h22, if_neg h5c, if_pos h08]
    rw [he, ← hc]
    simp [parseOneChar]
  by_cases h09 : c.toNat = 0x09
  · have hc : Char.ofNat 0x09 = c :=
      char_eq_of_toNat_eq (by rw [char_toNat_ofNat 0x09 (by decide), h09])
    have he : escapeCharBytes c = [0x5C, 0x74] := by
      unfold escapeCharBytes; rw [if_neg h22, if_neg h5c, if_neg h08, if_pos h09]
    rw [he, ← hc]
    simp [parseOneChar]
  by_cases h0A : c.toNat = 0x0A
  · have hc : Char.ofNat 0x0A = c :=
      char_eq_of_toNat_eq (by rw [char_toNat_ofNat 0x0A (by decide), h0A])
    have he : escapeCharBytes c = [0x5C, 0x6E] := by
      unfold escapeCharBytes; rw [if_neg h22, if_neg h5c, if_neg h08, if_neg h09, if_pos h0A]
    rw [he, ← hc]
    simp [parseOneChar]
  by_cases h0C : c.toNat = 0x0C
  · have hc : Char.ofNat 0x0C = c :=
      char_eq_of_toNat_eq (by rw [char_toNat_ofNat 0x0C (by decide), h0C])
    have he : escapeCharBytes c = [0x5C, 0x66] := by
      unfold escapeCharBytes
      rw [if_neg h22, if_neg h5c, if_neg h08, if_neg h09, if_neg h0A, if_pos h0C]
    rw [he, ← hc]
    simp [parseOneChar]
  by_cases h0D : c.toNat = 0x0D
  · have hc : Char.ofNat 0x0D = c :=
      char_eq_of_toNat_eq (by rw [char_toNat_ofNat 0x0D (by decide), h0D])
    have he : escapeCharBytes c = [0x5C, 0x72] := by
      unfold escapeCharBytes
      rw [if_neg h22, if_neg h5c, if_neg h08, if_neg h09, if_neg h0A, if_neg h0C, if_pos h0D]
    rw [he, ← hc]
    simp [parseOneChar]
  by_cases hctl : c.toNat < 0x20
  · have he : escapeCharBytes c =
        [0x5C, 0x75, 0x30, 0x30, hexDigitByte (c.toNat / 16), hexDigitByte (c.toNat % 16)] := by
      unfold escapeCharBytes
      rw [if_neg h22, if_neg h5c, if_neg h08, if_neg h09, if_neg h0A, if_neg h0C, if_neg h0D,
        if_pos hctl]
    rw [he]
    simp only [List.cons_append, List.nil_append]
    rw [poc_u 0x30 0x30 _ _ 0 0 (c.toNat / 16) (c.toNat % 16) r (by decide) (by decide)
      (hexVal_hexDigitByte _ (by omega)) (hexVal_hexDigitByte _ (by omega))
      (by unfold Nat.isValidChar; omega)]
    have harg : 0 * 4096 + 0 * 256 + c.toNat / 16 * 16 + c.toNat % 16 = c.toNat := by omega
    rw [harg, hofn]
  by_cases h80 : c.toNat < 0x80
  · have he : escapeCharBytes c = [c.toNat] := by
      unfold escapeCharBytes utf8EncodeChar
      rw [if_neg h22, if_neg h5c, if_neg h08, if_neg h09, if_neg h0A, if_neg h0C, if_neg h0D,
        if_neg hctl, if_pos h80]
    rw [he]
    simp only [List.cons_append, List.nil_append]
    rw [poc_ascii _ _ h22 h5c hctl h80, hofn]
  by_cases h800 : c.toNat < 0x800
  · have he : escapeCharBytes c = [0xC0 + c.toNat / 64, 0x80 + c.toNat % 64] := by
      unfold escapeCharBytes utf8EncodeChar
      rw [if_neg h22, if_neg h5c, if_neg h08, if_neg h09, if_neg h0A, if_neg h0C, if_neg h0D,
        if_neg hctl, if_neg h80, if_pos h800]
    rw [he]
    simp only [List.cons_append, List.nil_append]
    rw [poc_2byte _ _ _ (by omega) (by omega) (by omega) (by omega)]
    have harg : (0xC0 + c.toNat / 64 - 0xC0) * 64 + (0x80 + c.toNat % 64 - 0x80) = c.toNat := by
      omega
    rw [harg, hofn]
  by_cases h10000 : c.toNat < 0x10000
  · have he : escapeCharBytes c =
        [0xE0 + c.toNat / 4096, 0x80 + c.toNat / 64 % 64, 0x80 + c.toNat % 64] := by
      unfold escapeCharBytes utf8EncodeChar
      rw [if_neg h22, if_neg h5c, if_neg h08, if_neg h09, if_neg h0A, if_neg h0C, if_neg h0D,
        if_neg hctl, if_neg h80, if_neg h800, if_pos h10000]
    rw [he]
    simp only [List.cons_append, List.nil_append]
    rw [poc_3byte _ _ _ _ (by omega) (by omega) (by split_ifs <;> omega)]
    have harg : (0xE0 + c.toNat / 4096 - 0xE0) * 4096 + (0x80 + c.toNat / 64 % 64 - 0x80) * 64 +
        (0x80 + c.toNat % 64 - 0x80) = c.toNat := by omega
    rw [harg, hofn]
  · have he : escapeCharBytes c =
        [0xF0 + c.toNat / 262144, 0x80 + c.toNat / 4096 % 64, 0x80 + c.toNat / 64 % 64,
          0x80 + c.toNat % 64] := by
      unfold escapeCharBytes utf8EncodeChar
      rw [if_neg h22, if_neg h5c, if_neg h08, if_neg h09, if_neg h0A, if_neg h0C, if_neg h0D,
        if_neg hctl, if_neg h80, if_neg h800, if_neg h10000]
    rw [he]
    simp only [List.cons_append, List.nil_append]
    rw [poc_4byte _ _ _ _ _ (by omega) (by omega) (by split_ifs <;> omega)]
    have harg : (0xF0 + c.toNat / 262144 - 0xF0) * 262144 + (0x80 + c.toNat / 4096 % 64 - 0x80) *
        4096 + (0x80 + c.toNat / 64 % 64 - 0x80) * 64 + (0x80 + c.toNat % 64 - 0x80) = c.toNat := by
      omega
    rw [harg, hofn]

theorem parseOneChar_quote (x : List Nat) : parseOneChar (0x22 :: x) = none := by
  unfold parseOneChar
  dsimp only
  rw [if_pos rfl]

/-- The escape bytes of a char never start with a quote byte. -/
theorem escapeCharBytes_head (c : Char) :
    ∃ b0 tl, escapeCharBytes c = b0 :: tl ∧ ¬ b0 = 0x22 := by
  have hesc := parseOneChar_escape c []
  cases hb : escapeCharBytes c with
  | nil =>
    rw [hb] at hesc
    simp only [List.nil_append] at hesc
    simp [parseOneChar] at hesc
  | cons b0 tl =>
    refine ⟨b0, tl, rfl, ?_⟩
    intro h22
    subst h22
    rw [hb] at hesc
    simp only [List.cons_append] at hesc
    rw [parseOneChar_quote] at hesc
    exact Option.noConfusion hesc

theorem parseStringBodyAux_escBody (s : List Char) : ∀ (fuel : Nat) (rest : List Nat),
    s.length + 1 ≤ fuel →
    parseStringBodyAux fuel (escBody s ++ 0x22 :: rest) = some (s, rest) := by
  induction s with
  | nil =>
    intro fuel rest hfuel
    match fuel, hfuel with
    | f + 1, _ =>
      simp only [escBody, List.map_nil, List.flatten_nil, List.nil_append]
      rw [parseStringBodyAux]
      rw [if_pos rfl]
  | cons c s' ih =>
    intro fuel rest hfuel
    match fuel, hfuel with
    | f + 1, hfuel =>
      obtain ⟨b0, tl, hb, hb22⟩ := escapeCharBytes_head c
      have hbytes : escBody (c :: s') ++ 0x22 :: rest =
          b0 :: (tl ++ (escBody s' ++ 0x22 :: rest)) := by
        simp only [escBody, List.map_cons, List.flatten_cons, List.append_assoc, hb,
          List.cons_append]
      rw [hbytes, parseStringBodyAux, if_neg hb22]
      have hone : parseOneChar (b0 :: (tl ++ (escBody s' ++ 0x22 :: rest))) =
          some (c, escBody s' ++ 0x22 :: rest) := by
        rw [show b0 :: (tl ++ (escBody s' ++ 0x22 :: rest)) =
          escapeCharBytes c ++ (escBody s' ++ 0x22 :: rest) from by rw [hb]; rfl]
        exact parseOneChar_escape c _
      rw [hone]
      dsimp only
      rw [ih f rest (by simpa using hfuel)]

/-- Each emitted escape sequence is nonempty, so the escaped body is at
least as long as the string. -/
theorem escBody_length (s : List Char) : s.length ≤ (escBody s).length := by
  induction s with
  | nil => simp [escBody]
  | cons c s' ih =>
    obtain ⟨b0, tl, hb, _⟩ := escapeCharBytes_head c
    simp only [escBody, List.map_cons, List.flatten_cons, List.length_append, List.length_cons, hb]
    simp only [escBody] at ih
    omega

/-- Round trip of a whole escaped string body followed by the closing
quote. -/
theorem parseStringBody_escBody (s : List Char) (rest : List Nat) :
    parseStringBody (escBody s ++ 0x22 :: rest) = some (s, rest) := by
  unfold parseStringBody
  apply parseStringBodyAux_escBody
  have := escBody_length s
  simp only [List.length_append, List.length_cons]
  omega

/-! ## JSON document round trip -/

theorem stripPre_self (p : List Nat) : ∀ rest, stripPrefixBytes p (p ++ rest) = some rest := by
  induction p with
  | nil => intro rest; rfl
  | cons b p' ih =>
    intro rest
    simp only [List.cons_append, stripPrefixBytes, if_pos, List.append_eq, ih]

/-- parseNatBytes round trip when the serialized number is followed by a
known non-digit byte. -/
theorem serializeNat_then (n : Nat) (b0 : Nat) (X : List Nat)
    (hb : ¬(0x30 ≤ b0 ∧ b0 ≤ 0x39)) (hX : ∃ tl, X = b0 :: tl) :
    parseNatBytes (serializeNat n ++ X) = some (n, X) := by
  obtain ⟨tl, rfl⟩ := hX
  apply parseNat_serializeNat
  intro x hx
  simp only [List.head?_cons, Option.some.injEq] at hx
  omega

theorem parseMember_serializeMember (m : Member) (hm : m.count < 256) (rest : List Nat) :
    parseMember (serializeMember m ++ rest) = some (m, rest) := by
  have hlayout : serializeMember m ++ rest =
      ascii "\x7b\"name\":" ++ ([0x22] ++ (escBody m.name ++ (0x22 :: (ascii ",\"count\":" ++
        (serializeNat m.count ++ (ascii "\x7d" ++ rest)))))) := by
    simp only [serializeMember, serializeString, List.append_assoc, List.cons_append,
      List.nil_append]
  rw [hlayout]
  unfold parseMember
  simp only [Option.bind_eq_bind]
  rw [stripPre_self]
  simp only [Option.some_bind]
  rw [stripPre_self]
  simp only [Option.some_bind]
  rw [parseStringBody_escBody]
  simp only [Option.some_bind]
  rw [stripPre_self]
  simp only [Option.some_bind]
  rw [serializeNat_then m.count 0x7D _ (by omega)
    ⟨_, by rw [show ascii "\x7d" = [0x7D] from by decide]; rfl⟩]
  simp only [Option.some_bind]
  rw [if_pos hm]
  rw [stripPre_self]
  simp only [Option.some_bind, Option.pure_def]

theorem parseMembersTail_serialize (ms : List Member) : ∀ (fuel : Nat) (rest : List Nat),
    ms.length ≤ fuel → (∀ m ∈ ms, m.count < 256) →
    parseMembersTail fuel (serializeMembersTail ms ++ 0x5D :: rest) = some (ms, rest) := by
  induction ms with
  | nil =>
    intro fuel rest _ _
    simp only [serializeMembersTail, List.nil_append]
    cases fuel with
    | zero =>
      unfold parseMembersTail
      rw [if_pos rfl]
    | succ f =>
      unfold parseMembersTail
      rw [if_pos rfl]
  | cons m ms' ih =>
    intro fuel rest hfuel hc
    match fuel, hfuel with
    | f + 1, hfuel =>
      have hm := hc m (by simp)
      have hlay : serializeMembersTail (m :: ms') ++ 0x5D :: rest =
          0x2C :: (serializeMember m ++ (serializeMembersTail ms' ++ 0x5D :: rest)) := by
        simp only [serializeMembersTail, List.cons_append, List.append_assoc]
      rw [hlay]
      unfold parseMembersTail
      rw [if_neg (by omega), if_pos rfl]
      simp only [Option.bind_eq_bind]
      rw [parseMember_serializeMember m hm]
      simp only [Option.some_bind]
      rw [ih f rest (by simpa using hfuel) (fun x hx => hc x (by simp [hx]))]
      simp only [Option.some_bind, Option.pure_def]

/-- serializeMember starts with the opening brace byte. -/
theorem serializeMember_cons (m : Member) :
    serializeMember m = 0x7B :: (ascii "\"name\":" ++ (serializeString m.name ++
      (ascii ",\"count\":" ++ (serializeNat m.count ++ ascii "\x7d")))) := by
  simp only [serializeMember, List.append_assoc]
  rw [show ascii "\x7b\"name\":" = 0x7B :: ascii "\"name\":" from by decide]
  simp only [List.cons_append]

theorem parseMembersBytes_cons (fuel : Nat) (b : Nat) (rest : List Nat) (h : ¬ b = 0x5D) :
    parseMembersBytes fuel (b :: rest) = (do
      let (m, r) ← parseMember (b :: rest)
      let (ms, r2) ← parseMembersTail fuel r
      pure (m :: ms, r2) : Option (List Member × List Nat)) := by
  unfold parseMembersBytes
  dsimp only
  rw [if_neg h]

theorem parseMembersBytes_serialize (ms : List Member) (fuel : Nat) (rest : List Nat)
    (hfuel : ms.length ≤ fuel) (hc : ∀ m ∈ ms, m.count < 256) :
    parseMembersBytes fuel (serializeMembersList ms ++ 0x5D :: rest) = some (ms, rest) := by
  cases ms with
  | nil =>
    simp only [serializeMembersList, List.nil_append]
    unfold parseMembersBytes
    dsimp only
    rw [if_pos rfl]
  | cons m ms' =>
    have hm := hc m (by simp)
    have hlay : serializeMembersList (m :: ms') ++ 0x5D :: rest =
        0x7B :: ((ascii "\"name\":" ++ (serializeString m.name ++ (ascii ",\"count\":" ++
          (serializeNat m.count ++ ascii "\x7d")))) ++
          (serializeMembersTail ms' ++ 0x5D :: rest)) := by
      simp only [serializeMembersList, serializeMember_cons, List.append_assoc, List.cons_append]
    rw [hlay, parseMembersBytes_cons _ _ _ (by omega)]
    rw [show (0x7B : Nat) :: ((ascii "\"name\":" ++ (serializeString m.name ++
        (ascii ",\"count\":" ++ (serializeNat m.count ++ ascii "\x7d")))) ++
        (serializeMembersTail ms' ++ 0x5D :: rest)) =
      serializeMember m ++ (serializeMembersTail ms' ++ 0x5D :: rest) from by
        rw [serializeMember_cons]; rfl]
    simp only [Option.bind_eq_bind]
    rw [parseMember_serializeMember m hm]
    simp only [Option.some_bind]
    rw [parseMembersTail_serialize ms' fuel rest (by simpa using Nat.le_of_succ_le hfuel)
      (fun x hx => hc x (by simp [hx]))]
    simp only [Option.some_bind, Option.pure_def]

theorem serializeMembersTail_length (ms : List Member) :
    ms.length ≤ (serializeMembersTail ms).length := by
  induction ms with
  | nil => simp [serializeMembersTail]
  | cons m ms' ih =>
    simp only [serializeMembersTail, List.length_cons, List.length_append]
    omega

theorem serializeMembersList_length (ms : List Member) :
    ms.length ≤ (serializeMembersList ms).length := by
  cases ms with
  | nil => simp [serializeMembersList]
  | cons m ms' =>
    have h1 := serializeMembersTail_length ms'
    have h2 : 1 ≤ (serializeMember m).length := by
      rw [serializeMember_cons]
      simp
    simp only [serializeMembersList, List.length_cons, List.length_append]
    omega

/-- The central codec fact: parsing the canonical serialization of any
structurally well-formed Book yields that Book back. -/
theorem jsonParse_serialize (b : Book) (h : WFBook b) :
    jsonParse (jsonSerialize b) = some b := by
  obtain ⟨hp, hi, hm⟩ := h
  have hlay : jsonSerialize b =
      ascii "\x7b\"people\":" ++ (serializeNat b.people ++ (ascii ",\"interval\":" ++
        (serializeNat b.interval ++ (ascii ",\"members\":[" ++ (serializeMembersList b.members ++
          0x5D :: [0x7D]))))) := by
    simp only [jsonSerialize, List.append_assoc, List.cons_append, List.nil_append]
  rw [hlay]
  unfold jsonParse
  simp only [Option.bind_eq_bind]
  rw [stripPre_self]
  simp only [Option.some_bind]
  rw [serializeNat_then b.people 0x2C _ (by omega)
    ⟨_, by rw [show ascii ",\"interval\":" = 0x2C :: ascii "\"interval\":" from by decide]; rfl⟩]
  simp only [Option.some_bind]
  rw [if_pos hp]
  rw [stripPre_self]
  simp only [Option.some_bind]
  rw [serializeNat_then b.interval 0x2C _ (by omega)
    ⟨_, by rw [show ascii ",\"members\":[" = 0x2C :: ascii "\"members\":[" from by decide]; rfl⟩]
  simp only [Option.some_bind]
  rw [if_pos hi]
  rw [stripPre_self]
  simp only [Option.some_bind]
  rw [parseMembersBytes_serialize b.members _ [0x7D] ?hf hm]
  case hf =>
    have := serializeMembersList_length b.members
    simp only [List.length_append, List.length_cons]
    omega
  simp only [Option.some_bind]
  simp only [if_true, Option.pure_def]

/-! ## Codec round trip -/

/-- encode_book succeeds on every structurally well-formed Book and
decode_book inverts it. -/
theorem encode_decode_roundtrip (b : Book) (h : WFBook b) :
    ∃ t, encode_book b = .ok t ∧ decode_book t = .ok b := by
  have hbytes := jsonSerialize_lt b
  have hchars := b64encode_chars _ hbytes
  obtain ⟨t, h1, h2⟩ := hira_list_roundtrip _ hchars
  refine ⟨t, ?_, ?_⟩
  · unfold encode_book
    exact h1
  · unfold decode_book
    rw [h2]
    dsimp only
    rw [b64decode_encode _ hbytes]
    dsimp only
    rw [jsonParse_serialize b h]

/-- C1: For every structurally valid Ledger L (any people, interval, and
ordered member list of name/count pairs), encode_book(L) succeeds, and
decode_book(encode_book(L)) returns a Ledger equal to L field-for-field,
including the order of members and each member's count. -/
theorem claim_C1 (b : Book) (h : WFBook b) :
    ∃ t, encode_book b = .ok t ∧ decode_book t = .ok b :=
  encode_decode_roundtrip b h

theorem claim_C1_witness :
    WFBook bookA ∧ ∃ t, encode_book bookA = .ok t ∧ decode_book t = .ok bookA :=
  ⟨by decide, claim_C1 bookA (by decide)⟩

/-! ## What a successful decode does and does not guarantee -/

theorem parseMember_count_lt {bytes : List Nat} {m : Member} {r : List Nat}
    (h : parseMember bytes = some (m, r)) : m.count < 256 := by
  unfold parseMember at h
  simp only [Option.bind_eq_bind, Option.bind_eq_some] at h
  obtain ⟨r1, _, h⟩ := h
  obtain ⟨r2, _, h⟩ := h
  obtain ⟨⟨name, r3⟩, _, h⟩ := h
  obtain ⟨r4, _, h⟩ := h
  obtain ⟨⟨n, r5⟩, _, h⟩ := h
  dsimp only at h
  split at h
  · rename_i hn
    simp only [Option.bind_eq_some, Option.pure_def, Option.some.injEq, Prod.mk.injEq] at h
    obtain ⟨r6, _, hm, _⟩ := h
    rw [← hm]
    exact hn
  · exact absurd h (by simp)

theorem parseMembersTail_counts : ∀ (fuel : Nat) (bytes : List Nat) (ms : List Member)
    (r : List Nat), parseMembersTail fuel bytes = some (ms, r) → ∀ m ∈ ms, m.count < 256 := by
  intro fuel
  induction fuel with
  | zero =>
    intro bytes ms r h
    cases bytes with
    | nil => exact absurd h (by simp [parseMembersTail])
    | cons b rest =>
      unfold parseMembersTail at h
      split at h
      · simp only [Option.some.injEq, Prod.mk.injEq] at h
        rw [← h.1]
        simp
      · exact absurd h (by simp)
  | succ f ih =>
    intro bytes ms r h
    cases bytes with
    | nil => exact absurd h (by simp [parseMembersTail])
    | cons b rest =>
      unfold parseMembersTail at h
      split at h
      · simp only [Option.some.injEq, Prod.mk.injEq] at h
        rw [← h.1]
        simp
      · split at h
        · simp only [Option.bind_eq_bind, Option.bind_eq_some] at h
          obtain ⟨⟨m1, r1⟩, hm1, h⟩ := h
          dsimp only at h
          obtain ⟨⟨ms', r2⟩, hms', h⟩ := h
          dsimp only at h
          simp only [Option.pure_def, Option.some.injEq, Prod.mk.injEq] at h
          obtain ⟨hms, _⟩ := h
          rw [← hms]
          intro m hm
          rcases List.mem_cons.mp hm with rfl | hm2
          · exact parseMember_count_lt hm1
          · exact ih r1 ms' r2 hms' m hm2
        · exact absurd h (by simp)

theorem parseMembersBytes_counts {fuel : Nat} {bytes : List Nat} {ms : List Member}
    {r : List Nat} (h : parseMembersBytes fuel bytes = some (ms, r)) :
    ∀ m ∈ ms, m.count < 256 := by
  cases bytes with
  | nil => exact absurd h (by simp [parseMembersBytes])
  | cons b rest =>
    unfold parseMembersBytes at h
    dsimp only at h
    split at h
    · simp only [Option.some.injEq, Prod.mk.injEq] at h
      rw [← h.1]
      simp
    · simp only [Option.bind_eq_bind, Option.bind_eq_some] at h
      obtain ⟨⟨m1, r1⟩, hm1, h⟩ := h
      dsimp only at h
      obtain ⟨⟨ms', r2⟩, hms', h⟩ := h
      dsimp only at h
      simp only [Option.pure_def, Option.some.injEq, Prod.mk.injEq] at h
      obtain ⟨hms, _⟩ := h
      rw [← hms]
      intro m hm
      rcases List.mem_cons.mp hm with rfl | hm2
      · exact parseMember_count_lt hm1
      · exact parseMembersTail_counts fuel r1 ms' r2 hms' m hm2

theorem jsonParse_bounds {bytes : List Nat} {b : Book} (h : jsonParse bytes = some b) :
    b.people < 18446744073709551616 ∧ b.interval < 18446744073709551616 ∧
      ∀ m ∈ b.members, m.count < 256 := by
  unfold jsonParse at h
  simp only [Option.bind_eq_bind, Option.bind_eq_some] at h
  obtain ⟨r1, _, h⟩ := h
  obtain ⟨⟨people, r2⟩, _, h⟩ := h
  dsimp only at h
  split at h
  · rename_i hp
    simp only [Option.bind_eq_some] at h
    obtain ⟨r3, _, h⟩ := h
    obtain ⟨⟨interval, r4⟩, _, h⟩ := h
    dsimp only at h
    split at h
    · rename_i hi
      simp only [Option.bind_eq_some] at h
      obtain ⟨r5, _, h⟩ := h
      obtain ⟨⟨ms, r6⟩, hms, h⟩ := h
      dsimp only at h
      split at h
      · simp only [Option.pure_def, Option.some.injEq] at h
        rw [← h]
        exact ⟨hp, hi, parseMembersBytes_counts hms⟩
      · exact absurd h (by simp)
    · exact absurd h (by simp)
  · exact absurd h (by simp)

theorem decode_book_bounds (s : List Char) (b : Book) (h : decode_book s = .ok b) :
    b.people < 18446744073709551616 ∧ b.interval < 18446744073709551616 ∧
      ∀ m ∈ b.members, m.count < 256 := by
  unfold decode_book at h
  split at h
  · exact absurd h (by simp)
  · split at h
    · exact absurd h (by simp)
    · split at h
      · exact absurd h (by simp)
      · rename_i hjson
        rw [Except.ok.injEq] at h
        rw [← h]
        exact jsonParse_bounds hjson

/-- decode_book accepts this token even though the ledger it carries
violates every invariant (people = 0, a count above 5, duplicate names). -/
theorem badTok_decodes : decode_book badTok = .ok badBook := by decide

/-- C2 as stated is false: decode_book succeeds on a token whose payload
has people = 0, a member count above 5, and two members with equal names,
so a successful decode does not guarantee the data-model invariants and
decode does not fail on payloads that violate them. -/
theorem claim_C2_counterexample :
    decode_book badTok = .ok badBook ∧ badBook.people = 0 ∧
      (∃ m ∈ badBook.members, 5 < m.count) ∧
      ¬ (badBook.members.map Member.name).Nodup :=
  ⟨badTok_decodes, by decide, by decide, by decide⟩

/-- C2, amended: a successful decode_book guarantees exactly the
schema-level typing bounds — people and interval fit 64-bit usize and every
member count fits u8 — and nothing more; the semantic invariants
(people >= 1, count <= 5, distinct names) are not checked by decode. -/
theorem claim_C2 (s : List Char) (b : Book) (h : decode_book s = .ok b) :
    b.people < 18446744073709551616 ∧ b.interval < 18446744073709551616 ∧
      ∀ m ∈ b.members, m.count < 256 :=
  decode_book_bounds s b h

theorem claim_C2_witness :
    decode_book badTok = .ok badBook ∧
      (badBook.people < 18446744073709551616 ∧ badBook.interval < 18446744073709551616 ∧
        ∀ m ∈ badBook.members, m.count < 256) :=
  ⟨badTok_decodes, claim_C2 badTok badBook badTok_decodes⟩

/-! ## The reset step of assign -/

theorem foldlMax_init (ms : List Member) : ∀ a : Nat,
    ms.foldl (fun x m => max x m.count) a = max a (ms.foldl (fun x m => max x m.count) 0) := by
  induction ms with
  | nil => intro a; simp
  | cons m ms' ih =>
    intro a
    simp only [List.foldl_cons]
    rw [ih (max a m.count), ih (max 0 m.count)]
    omega

theorem maxCount_cons (m : Member) (ms : List Member) :
    maxCount (m :: ms) = max m.count (maxCount ms) := by
  unfold maxCount
  simp only [List.foldl_cons]
  rw [foldlMax_init]
  omega

theorem le_maxCount_iff (k : Nat) (hk : 1 ≤ k) (ms : List Member) :
    k ≤ maxCount ms ↔ ∃ m ∈ ms, k ≤ m.count := by
  induction ms with
  | nil =>
    simp only [List.not_mem_nil, false_and, exists_false, iff_false, maxCount, List.foldl_nil]
    omega
  | cons m ms' ih =>
    rw [maxCount_cons]
    constructor
    · intro h
      by_cases hm : k ≤ m.count
      · exact ⟨m, by simp, hm⟩
      · have h2 : k ≤ maxCount ms' := by omega
        obtain ⟨x, hx, hxk⟩ := ih.mp h2
        exact ⟨x, by simp [hx], hxk⟩
    · intro hex
      obtain ⟨x, hx, hxk⟩ := hex
      rcases List.mem_cons.mp hx with rfl | hx2
      · omega
      · have := ih.mpr ⟨x, hx2, hxk⟩
        omega

/-- C4: For every member list given to assign, if the maximum count is at
least 5 (equivalently: some member reached the threshold, even just one)
then every member's count is 0 immediately after the reset step, before
candidate selection and increments; and the reset does not fire when the
maximum is below 5. -/
theorem claim_C4 (ms : List Member) :
    (5 ≤ maxCount ms ↔ ∃ m ∈ ms, 5 ≤ m.count) ∧
    (5 ≤ maxCount ms → ∀ m ∈ resetStep ms, m.count = 0) ∧
    (maxCount ms < 5 → resetStep ms = ms) := by
  refine ⟨le_maxCount_iff 5 (by omega) ms, ?_, ?_⟩
  · intro h m hm
    unfold resetStep at hm
    rw [if_pos h] at hm
    obtain ⟨m', _, rfl⟩ := List.mem_map.mp hm
    rfl
  · intro h
    unfold resetStep
    rw [if_neg (by omega)]

theorem claim_C4_witness :
    (∀ m ∈ resetStep [(⟨"A".data, 5⟩ : Member), ⟨"B".data, 2⟩], m.count = 0) ∧
      resetStep bookB.members = bookB.members :=
  ⟨(claim_C4 [⟨"A".data, 5⟩, ⟨"B".data, 2⟩]).2.1 (by decide),
    (claim_C4 bookB.members).2.2 (by decide)⟩

/-! ## The count bound under the three mutating commands -/

theorem wrapInc_le_5 (c : Nat) : wrapInc c ≤ 5 := by
  unfold wrapInc
  split <;> omega

theorem wrapInc_eq (c : Nat) : wrapInc c = if 5 < c + 1 then 0 else c + 1 := by
  unfold wrapInc
  split_ifs <;> omega

theorem mem_modifyIdx (f : Member → Member) :
    ∀ (i : Nat) (l : List Member) (m : Member), m ∈ modifyIdx f i l →
      m ∈ l ∨ ∃ m' ∈ l, m = f m' := by
  intro i l
  induction l generalizing i with
  | nil => intro m hm; simp [modifyIdx] at hm
  | cons x xs ih =>
    intro m hm
    cases i with
    | zero =>
      rcases List.mem_cons.mp hm with rfl | hm2
      · exact Or.inr ⟨x, by simp⟩
      · exact Or.inl (by simp [hm2])
    | succ n =>
      rcases List.mem_cons.mp hm with rfl | hm2
      · exact Or.inl (by simp)
      · rcases ih n m hm2 with h | ⟨m', hm', rfl⟩
        · exact Or.inl (by simp [h])
        · exact Or.inr ⟨m', by simp [hm'], rfl⟩

theorem applySelected_le_5 (sel : List Nat) : ∀ (ms : List Member),
    (∀ m ∈ ms, m.count ≤ 5) → ∀ m ∈ applySelected ms sel, m.count ≤ 5 := by
  induction sel with
  | nil => intro ms h m hm; exact h m hm
  | cons i sel' ih =>
    intro ms h m hm
    unfold applySelected at hm
    simp only [List.foldl_cons] at hm
    refine ih _ ?_ m hm
    intro x hx
    rcases mem_modifyIdx _ i ms x hx with h2 | ⟨m', hm', rfl⟩
    · exact h x h2
    · exact wrapInc_le_5 m'.count

theorem resetStep_le_5 (ms : List Member) (h : ∀ m ∈ ms, m.count ≤ 5) :
    ∀ m ∈ resetStep ms, m.count ≤ 5 := by
  intro m hm
  unfold resetStep at hm
  split at hm
  · obtain ⟨m', _, rfl⟩ := List.mem_map.mp hm
    simp
  · exact h m hm

theorem ms_countSum_le_mul (k : Nat) (ms : List Member) (h : ∀ m ∈ ms, m.count ≤ k) :
    ms_countSum ms ≤ k * ms.length := by
  induction ms with
  | nil => simp [ms_countSum]
  | cons m ms' ih =>
    have h1 := h m (by simp)
    have h2 := ih (fun x hx => h x (by simp [hx]))
    simp only [ms_countSum, List.map_cons, List.sum_cons, List.length_cons] at h2 ⊢
    have : k * (ms'.length + 1) = k * ms'.length + k := by ring
    omega

theorem roundedMean_le_5 (s n : Nat) (hn : 1 ≤ n) (hs : s ≤ 5 * n) :
    roundedMean s n ≤ 5 := by
  unfold roundedMean
  have : (2 * s + n) / (2 * n) < 6 := by
    rw [Nat.div_lt_iff_lt_mul (by omega)]
    omega
  omega

/-- C3: starting from a ledger satisfying the invariants, any single
successful assign, add-member or remove-member leaves every member's count
in [0,5] (0 is automatic for Nat counts). -/
theorem claim_C3 (b : Book) (shuffle : List Nat → List Nat)
    (hpeople : 1 ≤ b.people) (hcounts : ∀ m ∈ b.members, m.count ≤ 5)
    (hnames : (b.members.map Member.name).Nodup) :
    (∀ sel b', assign_book shuffle b = .ok (sel, b') → ∀ m ∈ b'.members, m.count ≤ 5) ∧
    (∀ name b', add_member b name = .ok b' → ∀ m ∈ b'.members, m.count ≤ 5) ∧
    (∀ name b', remove_member b name = .ok b' → ∀ m ∈ b'.members, m.count ≤ 5) := by
  refine ⟨?_, ?_, ?_⟩
  · intro sel b' hok
    unfold assign_book at hok
    split at hok
    · exact absurd hok (by simp)
    · rw [Except.ok.injEq, Prod.mk.injEq] at hok
      obtain ⟨-, hb'⟩ := hok
      rw [← hb']
      exact applySelected_le_5 _ _ (resetStep_le_5 b.members hcounts)
  · intro name b' hok
    unfold add_member at hok
    split at hok
    · exact absurd hok (by simp)
    · rw [Except.ok.injEq] at hok
      rw [← hok]
      intro m hm
      rcases List.mem_append.mp hm with hm2 | hm2
      · exact hcounts m hm2
      · simp only [List.mem_singleton] at hm2
        subst hm2
        dsimp only
        split
        · omega
        · rename_i hne
          apply roundedMean_le_5
          · rcases hb : b.members with _ | ⟨x, xs⟩
            · rw [hb] at hne; simp at hne
            · simp [hb]
          · exact ms_countSum_le_mul 5 b.members hcounts
  · intro name b' hok
    unfold remove_member at hok
    split at hok
    · exact absurd hok (by simp)
    · rw [Except.ok.injEq] at hok
      rw [← hok]
      intro m hm
      exact hcounts m (List.mem_filter.mp hm).1

theorem claim_C3_witness :
    (1 ≤ bookB.people) ∧ (∀ m ∈ bookB.members, m.count ≤ 5) ∧
      (bookB.members.map Member.name).Nodup ∧
      ((∀ sel b', assign_book id bookB = .ok (sel, b') → ∀ m ∈ b'.members, m.count ≤ 5) ∧
       (∀ name b', add_member bookB name = .ok b' → ∀ m ∈ b'.members, m.count ≤ 5) ∧
       (∀ name b', remove_member bookB name = .ok b' → ∀ m ∈ b'.members, m.count ≤ 5)) :=
  ⟨by decide, by decide, by decide, claim_C3 bookB id (by decide) (by decide) (by decide)⟩

/-! ## Candidate selection of assign -/

theorem enumFromIdx_mem : ∀ (ms : List Member) (k i : Nat) (m : Member),
    (i, m) ∈ enumFromIdx k ms → k ≤ i ∧ ms.get? (i - k) = some m := by
  intro ms
  induction ms with
  | nil => intro k i m hm; simp [enumFromIdx] at hm
  | cons x xs ih =>
    intro k i m hm
    unfold enumFromIdx at hm
    rcases List.mem_cons.mp hm with heq | hm2
    · rw [Prod.mk.injEq] at heq
      obtain ⟨rfl, rfl⟩ := heq
      simp
    · obtain ⟨hk, hget⟩ := ih (k + 1) i m hm2
      refine ⟨by omega, ?_⟩
      have : i - k = (i - (k + 1)) + 1 := by omega
      rw [this]
      simpa using hget

theorem candIdx_mem {ms : List Member} {minc : Nat} {i : Nat} (h : i ∈ candIdx ms minc) :
    ∃ m, ms.get? i = some m ∧ m.count = minc := by
  unfold candIdx at h
  obtain ⟨p, hp, rfl⟩ := List.mem_map.mp h
  obtain ⟨henum, hcnt⟩ := List.mem_filter.mp hp
  have hcnt2 : p.2.count = minc := by simpa using hcnt
  obtain ⟨-, hget⟩ := enumFromIdx_mem ms 0 p.1 p.2 (by simpa using henum)
  simp only [Nat.sub_zero] at hget
  exact ⟨p.2, hget, hcnt2⟩

theorem enumFromIdx_filter_length (ms : List Member) (minc : Nat) : ∀ k,
    ((enumFromIdx k ms).filter (fun p => p.2.count == minc)).length =
      ms.countP (fun m => m.count == minc) := by
  induction ms with
  | nil => intro k; simp [enumFromIdx]
  | cons x xs ih =>
    intro k
    unfold enumFromIdx
    rw [List.filter_cons, List.countP_cons]
    by_cases hx : (x.count == minc) = true
    · rw [if_pos (show (((k, x).2.count == minc) = true) from hx), if_pos hx]
      simp only [List.length_cons, ih (k + 1)]
    · rw [if_neg (show ¬ (((k, x).2.count == minc) = true) from hx), if_neg hx]
      simp only [ih (k + 1)]
      omega

theorem candIdx_length (ms : List Member) (minc : Nat) :
    (candIdx ms minc).length = ms.countP (fun m => m.count == minc) := by
  unfold candIdx
  rw [List.length_map]
  exact enumFromIdx_filter_length ms minc 0

/-- C5: whenever assign succeeds, every selected index points at a member
whose count equals the minimum count computed after the reset step (so
members above the minimum are never selected), and the number of selected
members is min(people, number of minimum-tied members). -/
theorem claim_C5 (shuffle : List Nat → List Nat) (hperm : ∀ l, (shuffle l).Perm l)
    (b : Book) (sel : List Nat) (b' : Book)
    (hok : assign_book shuffle b = .ok (sel, b')) :
    (∀ i ∈ sel, ∃ m, (resetStep b.members).get? i = some m ∧
      m.count = minCount (resetStep b.members)) ∧
    sel.length = min b.people ((resetStep b.members).countP
      (fun m => m.count == minCount (resetStep b.members))) := by
  unfold assign_book at hok
  split at hok
  · exact absurd hok (by simp)
  · rw [Except.ok.injEq, Prod.mk.injEq] at hok
    obtain ⟨hsel, -⟩ := hok
    constructor
    · intro i hi
      rw [← hsel] at hi
      have h2 : i ∈ shuffle (candIdx (resetStep b.members) (minCount (resetStep b.members))) :=
        List.take_subset _ _ hi
      have h3 : i ∈ candIdx (resetStep b.members) (minCount (resetStep b.members)) :=
        ((hperm _).mem_iff).mp h2
      exact candIdx_mem h3
    · rw [← hsel, List.length_take]
      have hlen : (shuffle (candIdx (resetStep b.members)
          (minCount (resetStep b.members)))).length =
          (candIdx (resetStep b.members) (minCount (resetStep b.members))).length :=
        (hperm _).length_eq
      rw [hlen, candIdx_length]
      omega

theorem claim_C5_witness :
    assign_book id bookB = .ok ([2], ⟨1, 0, [⟨"A".data, 4⟩, ⟨"B".data, 4⟩, ⟨"C".data, 3⟩]⟩) ∧
      ((∀ i ∈ [2], ∃ m, (resetStep bookB.members).get? i = some m ∧
        m.count = minCount (resetStep bookB.members)) ∧
      [2].length = min bookB.people ((resetStep bookB.members).countP
        (fun m => m.count == minCount (resetStep bookB.members)))) :=
  ⟨by decide, claim_C5 id (fun l => List.Perm.refl l) bookB [2]
    ⟨1, 0, [⟨"A".data, 4⟩, ⟨"B".data, 4⟩, ⟨"C".data, 3⟩]⟩ (by decide)⟩

/-! ## The update step of assign -/

theorem get?_modifyIdx_self (f : Member → Member) :
    ∀ (i : Nat) (l : List Member), (modifyIdx f i l).get? i = (l.get? i).map f := by
  intro i l
  induction l generalizing i with
  | nil => cases i <;> rfl
  | cons x xs ih =>
    cases i with
    | zero => rfl
    | succ n =>
      unfold modifyIdx
      simp only [List.get?_cons_succ]
      exact ih n

theorem get?_modifyIdx_ne (f : Member → Member) :
    ∀ (i j : Nat) (l : List Member), j ≠ i → (modifyIdx f i l).get? j = l.get? j := by
  intro i j l
  induction l generalizing i j with
  | nil => intro _; cases i <;> rfl
  | cons x xs ih =>
    intro hne
    cases i with
    | zero =>
      cases j with
      | zero => exact absurd rfl hne
      | succ jn => rfl
    | succ n =>
      cases j with
      | zero => rfl
      | succ jn =>
        unfold modifyIdx
        simp only [List.get?_cons_succ]
        exact ih n jn (by omega)

theorem applySelected_get_other (sel : List Nat) : ∀ (ms : List Member) (j : Nat), j ∉ sel →
    (applySelected ms sel).get? j = ms.get? j := by
  induction sel with
  | nil => intro ms j _; rfl
  | cons i sel' ih =>
    intro ms j hj
    unfold applySelected
    simp only [List.foldl_cons]
    have h1 : j ∉ sel' := fun h => hj (by simp [h])
    have h2 : j ≠ i := fun h => hj (by simp [h])
    unfold applySelected at ih
    rw [ih _ j h1, get?_modifyIdx_ne _ i j ms h2]

theorem applySelected_get_sel (sel : List Nat) (hnd : sel.Nodup) :
    ∀ (ms : List Member), ∀ i ∈ sel, (applySelected ms sel).get? i =
      (ms.get? i).map (fun m => ⟨m.name, wrapInc m.count⟩) := by
  induction sel with
  | nil => intro ms i hi; simp at hi
  | cons i0 sel' ih =>
    intro ms i hi
    have hnd' : sel'.Nodup := (List.nodup_cons.mp hnd).2
    have hi0 : i0 ∉ sel' := (List.nodup_cons.mp hnd).1
    unfold applySelected
    simp only [List.foldl_cons]
    rcases List.mem_cons.mp hi with rfl | hi2
    · have : (applySelected (modifyIdx (fun m => ⟨m.name, wrapInc m.count⟩) i ms) sel').get? i =
          (modifyIdx (fun m => ⟨m.name, wrapInc m.count⟩) i ms).get? i :=
        applySelected_get_other sel' _ i hi0
      unfold applySelected at this
      rw [this, get?_modifyIdx_self]
    · have := ih hnd' (modifyIdx (fun m => ⟨m.name, wrapInc m.count⟩) i0 ms) i hi2
      unfold applySelected at this
      rw [this, get?_modifyIdx_ne _ i0 i ms (fun h => hi0 (h ▸ hi2))]

/-- C6: in assign's update step, each selected member's count becomes its
pre-update value plus 1, wrapping to 0 if that would exceed 5, while its
name is kept; every non-selected member is untouched; and assign never
changes the people and interval fields. -/
theorem claim_C6 (ms : List Member) (sel : List Nat) (hnd : sel.Nodup) :
    (∀ i ∈ sel, (applySelected ms sel).get? i =
      (ms.get? i).map (fun m => ⟨m.name, if 5 < m.count + 1 then 0 else m.count + 1⟩)) ∧
    (∀ j, j ∉ sel → (applySelected ms sel).get? j = ms.get? j) ∧
    (∀ (shuffle : List Nat → List Nat) (b : Book) sel' b',
      assign_book shuffle b = .ok (sel', b') → b'.people = b.people ∧ b'.interval = b.interval) := by
  refine ⟨?_, ?_, ?_⟩
  · intro i hi
    rw [applySelected_get_sel sel hnd ms i hi]
    have hfun : (fun m : Member => (⟨m.name, wrapInc m.count⟩ : Member)) =
        (fun m : Member => ⟨m.name, if 5 < m.count + 1 then 0 else m.count + 1⟩) :=
      funext fun m => by rw [wrapInc_eq]
    rw [hfun]
  · exact fun j hj => applySelected_get_other sel ms j hj
  · intro shuffle b sel' b' hok
    unfold assign_book at hok
    split at hok
    · exact absurd hok (by simp)
    · rw [Except.ok.injEq, Prod.mk.injEq] at hok
      obtain ⟨-, hb'⟩ := hok
      rw [← hb']
      exact ⟨rfl, rfl⟩

theorem claim_C6_witness :
    ([0, 2] : List Nat).Nodup ∧
      ((∀ i ∈ ([0, 2] : List Nat), (applySelected bookB.members [0, 2]).get? i =
        (bookB.members.get? i).map
          (fun m => ⟨m.name, if 5 < m.count + 1 then 0 else m.count + 1⟩)) ∧
      (∀ j, j ∉ ([0, 2] : List Nat) →
        (applySelected bookB.members [0, 2]).get? j = bookB.members.get? j) ∧
      (∀ (shuffle : List Nat → List Nat) (b : Book) sel' b',
        assign_book shuffle b = .ok (sel', b') →
          b'.people = b.people ∧ b'.interval = b.interval)) :=
  ⟨by decide, claim_C6 bookB.members [0, 2] (by decide)⟩

/-! ## Determinism of the seeded assign path -/

/-- C7: with the same token and the same explicit seed, assign is a pure
function: the ambient entropy source (the permutation the thread_rng path
would apply) has no influence on the selection or the resulting token. -/
theorem claim_C7 (tok : List Char) (s : Nat) (e1 e2 : List Nat → List Nat) :
    cmd_assign tok (some s) e1 = cmd_assign tok (some s) e2 := rfl

/-- Two seeded runs over the badBook token with entirely different ambient
entropy produce identical results. -/
theorem claim_C7_witness :
    cmd_assign badTok (some 5) id = cmd_assign badTok (some 5) (fun l => l.reverse) :=
  claim_C7 badTok 5 id (fun l => l.reverse)

/-! ## add-member -/

theorem ms_any_name_iff (ms : List Member) (name : List Char) :
    ms.any (fun m => m.name = name) = true ↔ ∃ m ∈ ms, m.name = name := by
  simp [List.any_eq_true]

/-- C8: add_member fails with the duplicate-member error exactly when the
name exists; otherwise it appends exactly one member at the end whose count
is the rounded arithmetic mean (2*s + n) / (2*n) of the existing counts,
0 on an empty ledger. -/
theorem claim_C8 (b : Book) (name : List Char) (hc : ∀ m ∈ b.members, m.count < 256) :
    (add_member b name = .error (.duplicateMember name) ↔ ∃ m ∈ b.members, m.name = name) ∧
    ((¬ ∃ m ∈ b.members, m.name = name) →
      add_member b name = .ok ⟨b.people, b.interval, b.members ++
        [⟨name, if b.members.isEmpty then 0
          else (2 * ms_countSum b.members + b.members.length) / (2 * b.members.length)⟩]⟩) := by
  have havg : (if b.members.isEmpty then 0
      else roundedMean (ms_countSum b.members) b.members.length) =
      (if b.members.isEmpty then 0
      else (2 * ms_countSum b.members + b.members.length) / (2 * b.members.length)) := by
    split
    · rfl
    · rename_i hne
      unfold roundedMean
      have hlen : 1 ≤ b.members.length := by
        rcases hb : b.members with _ | ⟨x, xs⟩
        · rw [hb] at hne; simp at hne
        · simp [hb]
      have hs : ms_countSum b.members ≤ 255 * b.members.length :=
        ms_countSum_le_mul 255 b.members (fun m hm => by have := hc m hm; omega)
      have hdiv : (2 * ms_countSum b.members + b.members.length) /
          (2 * b.members.length) < 256 := by
        rw [Nat.div_lt_iff_lt_mul (by omega)]
        have : 256 * (2 * b.members.length) = 512 * b.members.length := by ring
        omega
      omega
  constructor
  · constructor
    · intro h
      unfold add_member at h
      split at h
      · rename_i hdup
        exact (ms_any_name_iff b.members name).mp hdup
      · exact absurd h (by simp)
    · intro hex
      unfold add_member
      rw [if_pos ((ms_any_name_iff b.members name).mpr hex)]
  · intro hnot
    unfold add_member
    rw [if_neg (fun hdup => hnot ((ms_any_name_iff b.members name).mp hdup))]
    rw [havg]

theorem claim_C8_witness :
    (∀ m ∈ bookC.members, m.count < 256) ∧
      ((add_member bookC "C".data = .error (.duplicateMember "C".data) ↔
        ∃ m ∈ bookC.members, m.name = "C".data) ∧
      ((¬ ∃ m ∈ bookC.members, m.name = "C".data) →
        add_member bookC "C".data = .ok ⟨bookC.people, bookC.interval, bookC.members ++
          [⟨"C".data, if bookC.members.isEmpty then 0
            else (2 * ms_countSum bookC.members + bookC.members.length) /
              (2 * bookC.members.length)⟩]⟩)) ∧
      add_member bookC "C".data =
        .ok ⟨1, 0, [⟨"A".data, 2⟩, ⟨"B".data, 4⟩, ⟨"C".data, 3⟩]⟩ ∧
      add_member bookC "A".data = .error (.duplicateMember "A".data) :=
  ⟨by decide, claim_C8 bookC "C".data (by decide), by decide, by decide⟩

/-! ## Alphabet closure of decode -/

/-- C9: decode_book fails with the invalid-token-character error on every
input containing any character outside the 64-code-point hiragana block,
wherever it sits, returning no partial result; and every character inside
the block maps to a base64url symbol. -/
theorem claim_C9 (tok : List Char) (hbad : ∃ c ∈ tok, ¬ inBlock c) :
    (∃ c, ¬ inBlock c ∧ decode_book tok = .error (.invalidTokenChar c)) ∧
    (∀ c, inBlock c → ∃ b64c, hiragana_char_to_base64url c = some b64c ∧
      isB64UrlChar b64c = true) := by
  constructor
  · obtain ⟨c, hcbad, herr⟩ := hiragana_to_base64url_fails tok hbad
    refine ⟨c, hcbad, ?_⟩
    unfold decode_book
    rw [herr]
  · intro c hc
    have hmap := hira_char_maps_to_b64 c hc
    cases he : hiragana_char_to_base64url c with
    | none => rw [he] at hmap; simp at hmap
    | some b64c =>
      rw [he] at hmap
      exact ⟨b64c, rfl, by simpa using hmap⟩

theorem claim_C9_witness :
    (∃ c ∈ "Aあ".data, ¬ inBlock c) ∧
      ((∃ c, ¬ inBlock c ∧ decode_book "Aあ".data = .error (.invalidTokenChar c)) ∧
      (∀ c, inBlock c → ∃ b64c, hiragana_char_to_base64url c = some b64c ∧
        isB64UrlChar b64c = true)) :=
  ⟨by decide, claim_C9 "Aあ".data (by decide)⟩

/-! ## create and its member-argument splitting -/

/-- C10: split_members_arg splits on commas, trims surrounding whitespace,
and drops empty pieces; cmd_create performs no duplicate check, so the
input "a, a" creates a ledger with two members both named "a". -/
theorem claim_C10 :
    split_members_arg (" a ,, b ,a".data) = ["a".data, "b".data, "a".data] ∧
    cmd_create 2 7 (some ("a, a".data)) =
      .ok (⟨2, 7, [⟨"a".data, 0⟩, ⟨"a".data, 0⟩]⟩, createTok) ∧
    ¬ (([⟨"a".data, 0⟩, ⟨"a".data, 0⟩] : List Member).map Member.name).Nodup :=
  ⟨by decide, by decide, by decide⟩

end Touban
